import Mathlib

/-!
# Verification of the `minify` command-line driver

A shallow embedding of `cmd/minify/main.go`: the output namer `minExt`, the
eligibility filter `validFile`, the directory enumerator `ioNames` and the
job loop of `main`, followed by the properties established about them.

Go strings are byte sequences; they are embedded as lists of byte values.
A Go runtime panic is the outcome `none` of an `Option`-valued function.
-/

namespace Minify

/-- A Go `string`: a sequence of bytes. -/
abbrev Str := List Nat

/-- The bytes of an ASCII literal. -/
def ascii (s : String) : Str := s.toList.map Char.toNat

/-- The byte `'.'`. -/
abbrev dotByte : Nat := 46

/-- The byte `'/'`, the path separator. -/
abbrev sepByte : Nat := 47

/-! ## The extension table -/

/-- The table `extMime` of `main.go`. -/
def extMime : List (Str × Str) :=
  [ (ascii ".css", ascii "text/css"),
    (ascii ".html", ascii "text/html"),
    (ascii ".js", ascii "application/javascript"),
    (ascii ".json", ascii "application/json"),
    (ascii ".svg", ascii "image/svg+xml"),
    (ascii ".xml", ascii "text/xml") ]

/-- Go's `m[k]` on a `map[string]string`: the zero value `""` for an absent key. -/
def mapIndex (m : List (Str × Str)) (k : Str) : Str := (m.lookup k).getD []

/-- Go's `_, ok := m[k]`. -/
def mapHas (m : List (Str × Str)) (k : Str) : Bool := (m.lookup k).isSome

/-- Go's `m[k] = v`: the entry for `k` is replaced or added. -/
def mapSet (m : List (Str × Str)) (k v : Str) : List (Str × Str) :=
  m.filter (fun e => e.1 != k) ++ [(k, v)]

/-! ## String helpers of the Go standard library -/

/-- The loop of `strings.LastIndexByte`: scan the indices below `n` downwards. -/
def lastIndexByteFrom (s : Str) (c : Nat) : Nat → Int
  | 0 => -1
  | i + 1 => if s.getD i 0 = c then (i : Int) else lastIndexByteFrom s c i

/-- Go's `strings.LastIndex(s, sep)` for a one-byte `sep`: the index of the
last occurrence of `c`, or `-1`. -/
def LastIndex (s : Str) (c : Nat) : Int := lastIndexByteFrom s c s.length

/-- Go's `strings.HasPrefix`. -/
def startsWith (s pre : Str) : Bool :=
  pre.length ≤ s.length && s.take pre.length == pre

/-- Go's `strings.Contains(s, substr)`: `substr` occurs at some position of `s`. -/
def Contains : Str → Str → Bool
  | [], sub => startsWith [] sub
  | c :: s, sub => startsWith (c :: s) sub || Contains s sub

/-- The loop of `filepath.Ext`: scan downwards from index `n - 1`, stopping at
a separator. -/
def extFrom (path : Str) : Nat → Str
  | 0 => []
  | i + 1 =>
    if path.getD i 0 = sepByte then []
    else if path.getD i 0 = dotByte then path.drop i
    else extFrom path i

/-- Go's `filepath.Ext`: the suffix beginning at the final dot of the final
path element, or `""`. -/
def Ext (path : Str) : Str := extFrom path path.length

/-- Lower-casing of one ASCII byte. -/
def lowerByte (c : Nat) : Nat := if 65 ≤ c ∧ c ≤ 90 then c + 32 else c

/-- Go's `strings.ToLower`. On a string of ASCII bytes it lower-cases the
letters `A`–`Z`; on any other string the result is that of mapping
`unicode.ToLower` over the runes, which is taken as the parameter
`unicodeLower`. -/
def ToLower (unicodeLower : Str → Str) (s : Str) : Str :=
  if s.all (fun c => decide (c < 128)) then s.map lowerByte else unicodeLower s

/-- Split a path at every separator. -/
def splitSep : Str → List Str
  | [] => [[]]
  | c :: s =>
    if c = sepByte then [] :: splitSep s
    else match splitSep s with
      | [] => [[c]]
      | h :: t => (c :: h) :: t

/-- One path element processed by `filepath.Clean`; `out` holds the elements
kept so far, last one first. -/
def cleanStep (rooted : Bool) (out : List Str) (elem : Str) : List Str :=
  if elem = [] ∨ elem = ascii "." then out
  else if elem = ascii ".." then
    match out with
    | top :: rest => if top = ascii ".." then elem :: out else rest
    | [] => if rooted then out else [elem]
  else elem :: out

/-- Join path elements with the separator. -/
def joinSep : List Str → Str
  | [] => []
  | [e] => e
  | e :: es => e ++ sepByte :: joinSep es

/-- Go's `filepath.Clean` on a Unix path: empty and `.` elements are dropped,
an inner `..` removes the element before it, `..` at the root is dropped, and
the empty result is `.`. -/
def Clean (path : Str) : Str :=
  if path = [] then ascii "."
  else
    let rooted := path.head? = some sepByte
    let out := (splitSep path).foldl (cleanStep rooted) []
    let body := joinSep out.reverse
    if rooted then sepByte :: body
    else if body = [] then ascii "." else body

/-- Go's `filepath.Join` of two elements: leading empty elements are ignored
and the rest is joined with the separator and cleaned. -/
def Join (a b : Str) : Str :=
  if a ≠ [] then Clean (a ++ sepByte :: b)
  else if b ≠ [] then Clean b
  else []

/-! ## The output namer and the eligibility filter -/

/-- The function `minExt` of `main.go`. -/
def minExt (path : Str) : Str :=
  let dot := LastIndex path dotByte
  if dot = -1 then path ++ ascii ".min"
  else path.take dot.toNat ++ ascii ".min" ++ path.drop dot.toNat

/-- The part of an `os.FileInfo` that the program reads. -/
structure FileInfo where
  name : Str
  isDir : Bool
deriving DecidableEq

/-- The function `validFile` of `main.go`. The argument `none` is the nil
`os.FileInfo`; the result `none` is a runtime panic (a method call on the nil
interface, or `Name()[0]` on the empty name). -/
def validFile (unicodeLower : Str → Str) (info : Option FileInfo) : Option Bool :=
  match info with
  | none => none
  | some fi =>
    if fi.isDir then some false
    else match fi.name with
      | [] => none
      | c :: _ =>
        if c = dotByte then some false
        else if Contains fi.name (ascii ".min.") then some false
        else some (mapHas extMime (ToLower unicodeLower (Ext fi.name)))

/-! ## The file system seen by the enumerator -/

/-- A directory entry as `Lstat` reports it: a non-directory (regular file,
symbolic link, ...) or a directory whose listing is `none` when it cannot be
read. -/
inductive Entry where
  | file (name : Str)
  | dir (name : Str) (children : Option (List Entry))

/-- The name of an entry. -/
def Entry.name : Entry → Str
  | .file n => n
  | .dir n _ => n

/-- The `os.FileInfo` of an entry. -/
def Entry.info : Entry → FileInfo
  | .file n => ⟨n, false⟩
  | .dir n _ => ⟨n, true⟩

/-- Go's `ioutil.ReadDir` on whatever lies at the path: the infos of the
children of a readable directory, an error (`none`) otherwise. The order of
the infos plays no part in the map that `ioNames` builds. -/
def ReadDir : Option Entry → Option (List FileInfo)
  | some (.dir _ (some children)) => some (children.map Entry.info)
  | _ => none

/-- The callback that `ioNames` hands to `filepath.Walk`. It always returns a
nil error, so the walk is never cut short; `none` is a panic. -/
def walkFn (unicodeLower : Str → Str) (path : Str) (info : Option FileInfo)
    (names : List (Str × Str)) : Option (List (Str × Str)) :=
  match validFile unicodeLower info with
  | none => none
  | some false => some names
  | some true => some (mapSet names path (minExt path))

mutual
/-- The function `walk` of `path/filepath`, specialised to `walkFn`: visit the
entry, then its children; a directory that cannot be listed is reported to
the callback a second time. -/
def walk (unicodeLower : Str → Str) (path : Str) :
    Entry → List (Str × Str) → Option (List (Str × Str))
  | .file n, names => walkFn unicodeLower path (some ⟨n, false⟩) names
  | .dir n cs, names =>
    match walkFn unicodeLower path (some ⟨n, true⟩) names with
    | none => none
    | some names1 =>
      match cs with
      | none => walkFn unicodeLower path (some ⟨n, true⟩) names1
      | some children => walkList unicodeLower path children names1
/-- The loop of `walk` over the children of the directory at `path`; `Lstat`
of a listed child is taken to succeed. -/
def walkList (unicodeLower : Str → Str) (path : Str) :
    List Entry → List (Str × Str) → Option (List (Str × Str))
  | [], names => some names
  | e :: es, names =>
    match walk unicodeLower (Join path e.name) e names with
    | none => none
    | some names1 => walkList unicodeLower path es names1
end

/-- Go's `filepath.Walk`, specialised to `walkFn`: when `Lstat` of the root
fails the callback is called once, with a nil info. -/
def Walk (unicodeLower : Str → Str) (root : Str) (fs : Option Entry)
    (names : List (Str × Str)) : Option (List (Str × Str)) :=
  match fs with
  | none => walkFn unicodeLower root none names
  | some e => walk unicodeLower root e names

/-- The loop of the non-recursive branch of `ioNames`. -/
def flatLoop (unicodeLower : Str → Str) (startDir : Str) :
    List FileInfo → List (Str × Str) → Option (List (Str × Str))
  | [], names => some names
  | info :: infos, names =>
    match validFile unicodeLower (some info) with
    | none => none
    | some false => flatLoop unicodeLower startDir infos names
    | some true =>
      let fullPath := Join startDir info.name
      flatLoop unicodeLower startDir infos (mapSet names fullPath (minExt fullPath))

/-- The function `ioNames` of `main.go`; `fs` is what the file system holds at
`startDir` (`none`: nothing there). The result `none` is a panic. -/
def ioNames (unicodeLower : Str → Str) (fs : Option Entry) (startDir : Str)
    (recursive : Bool) : Option (List (Str × Str)) :=
  if recursive then Walk unicodeLower startDir fs []
  else
    match ReadDir fs with
    | none => some []
    | some infos => flatLoop unicodeLower startDir infos []

/-! ## The file name of a path -/

/-- The first loop of `basename` in Go's `os` package: starting at index `i`,
step down over trailing separators, never below index `0`. The result is the
index of the last byte that is kept. -/
def trimFrom (name : Str) : Nat → Nat
  | 0 => 0
  | i + 1 => if name.getD (i + 1) 0 = sepByte then trimFrom name i else i + 1

/-- The second loop of `basename`: scan the indices below `n` downwards and
cut the name after the first separator met. -/
def cutFrom (name : Str) : Nat → Str
  | 0 => name
  | i + 1 => if name.getD i 0 = sepByte then name.drop (i + 1) else cutFrom name i

/-- The function `basename` of Go's `os` package, which yields the `Name()` of
the `os.FileInfo` of a path: trailing separators are removed, then the leading
directory. -/
def basename (name : Str) : Str :=
  let i := trimFrom name (name.length - 1)
  cutFrom (name.take (i + 1)) i

/-! ## The output namer as the specification words it -/

/-- The Output Namer as the specification describes it: with no `.` in the
path the marker `.min` is appended; otherwise the path is cut at its last `.`
into a stem and the text after that dot, and the result is
`stem ++ ".min." ++ ext`. -/
def deriveOutputPath (p : Str) : Str :=
  if dotByte ∈ p then
    let ext := (p.reverse.takeWhile (fun c => c != dotByte)).reverse
    let stem := ((p.reverse.dropWhile (fun c => c != dotByte)).drop 1).reverse
    stem ++ ascii ".min." ++ ext
  else p ++ ascii ".min"

/-! ## The candidates of an enumeration, as the specification words them -/

mutual
/-- Every entry of the subtree rooted at `e`, which lies at `path`, with the
path at which the walk reaches it. -/
def subtree (path : Str) : Entry → List (Str × FileInfo)
  | .file n => [(path, ⟨n, false⟩)]
  | .dir n none => [(path, ⟨n, true⟩)]
  | .dir n (some children) => (path, ⟨n, true⟩) :: subtreeList path children
/-- The entries of the subtrees of the children of the directory at `path`. -/
def subtreeList (path : Str) : List Entry → List (Str × FileInfo)
  | [] => []
  | e :: es => subtree (Join path e.name) e ++ subtreeList path es
end

/-- The candidate entries of an enumeration of the directory `startDir` with
the given children: the immediate children only, or the whole subtree. -/
def candidates (name : Str) (children : List Entry) (startDir : Str) (recursive : Bool) :
    List (Str × FileInfo) :=
  if recursive then subtree startDir (.dir name (some children))
  else children.map (fun e => (Join startDir e.name, e.info))

/-- The paths of the candidates that the eligibility filter accepts. -/
def eligiblePaths (unicodeLower : Str → Str) (cands : List (Str × FileInfo)) : List Str :=
  (cands.filter (fun c => validFile unicodeLower (some c.2) == some true)).map (fun c => c.1)

/-! ## The transform registry -/

/-- The six minifier functions that `main` registers. -/
inductive Minifier where
  | css | html | js | svg | json | xml
deriving DecidableEq

/-- Go's `strings.HasSuffix`. -/
def endsWith (s suf : Str) : Bool :=
  suf.length ≤ s.length && s.drop (s.length - suf.length) == suf

/-- The regular expression `[/+]<family>$` as a predicate on media types: the
text ends with `/<family>` or with `+<family>`. -/
def familyPattern (family : Str) (mediatype : Str) : Bool :=
  endsWith mediatype (sepByte :: family) || endsWith mediatype (43 :: family)

/-- Modelled from the spec: the Transform Registry of the `minify` package,
whose source is not part of the program text. It holds exact-match
registrations and pattern registrations. -/
structure Registry where
  literal : List (Str × Minifier)
  pattern : List ((Str → Bool) × Minifier)

/-- Modelled from the spec: `minify.New`, the empty registry. -/
def Registry.New : Registry := ⟨[], []⟩

/-- Modelled from the spec: `AddFunc`, an exact-match registration. -/
def Registry.AddFunc (m : Registry) (mediatype : Str) (f : Minifier) : Registry :=
  { m with literal := m.literal.filter (fun e => e.1 != mediatype) ++ [(mediatype, f)] }

/-- Modelled from the spec: `AddFuncRegexp`, a pattern registration. -/
def Registry.AddFuncRegexp (m : Registry) (pat : Str → Bool) (f : Minifier) : Registry :=
  { m with pattern := m.pattern ++ [(pat, f)] }

/-- Modelled from the spec: `resolve` of the Transform Registry. Exact-match
registrations take precedence; the patterns are tried only when no exact match
exists; the result is `none` when no matcher applies. -/
def Registry.resolve (m : Registry) (mediatype : Str) : Option Minifier :=
  match m.literal.lookup mediatype with
  | some f => some f
  | none => (m.pattern.find? (fun e => e.1 mediatype)).map (fun e => e.2)

/-- The registry that `main` builds (lines 55–61). -/
def registry : Registry :=
  (((((Registry.New.AddFunc (ascii "text/css") .css).AddFunc (ascii "text/html") .html).AddFunc
    (ascii "application/javascript") .js).AddFunc (ascii "image/svg+xml") .svg).AddFuncRegexp
    (familyPattern (ascii "json")) .json).AddFuncRegexp (familyPattern (ascii "xml")) .xml

/-! ## Streams and the job loop of `main` -/

/-- What a minifier function did with its input: the bytes it wrote and
whether it returned an error. -/
structure TransformResult where
  written : List Nat
  failed : Bool

/-- What standard input is bound to: a stream (a pipe or a terminal) that
still delivers `data`, or a file of the world, given by its key, read from the
offset `pos` (a redirection). -/
inductive Stdin where
  | stream (data : List Nat)
  | file (key : Str) (pos : Nat)

/-- The world of a run. A path names a file through `resolve`, which sends
every spelling of a path to a file, and every link to it, to the one key of
that file; `files` holds the contents of the files that can be opened, by
key; `denied` holds the paths that `os.Create` cannot create. Standard output
is a stream of its own, none of the files of the world; `stdout` holds the
bytes written to it. -/
structure World where
  resolve : Str → Str
  files : List (Str × List Nat)
  denied : List Str
  stdin : Stdin
  stdout : List Nat

/-- The reader `r` of `main`: standard input, an opened file (the key of the
file and the read offset), or an in-memory buffer. -/
inductive Reader where
  | stdin
  | file (key : Str) (pos : Nat)
  | buffer (data : List Nat)

/-- The writer `w` of `main`: standard output or a created file, given by its
key. -/
inductive Writer where
  | stdout
  | file (key : Str)

/-- Read a reader to its end: the bytes read, the reader and the world after.
A file is read as it is at the time of the read. -/
def readAll (world : World) : Reader → List Nat × Reader × World
  | .stdin =>
    match world.stdin with
    | .stream data => (data, .stdin, { world with stdin := .stream [] })
    | .file key pos =>
      let content := mapIndex world.files key
      (content.drop pos, .stdin, { world with stdin := .file key content.length })
  | .file key pos =>
    let content := mapIndex world.files key
    (content.drop pos, .file key content.length, world)
  | .buffer data => (data, .buffer [], world)

/-- Write bytes to a writer; a created file is written from its start on, so
the bytes are added at its end. -/
def writeAll (world : World) (data : List Nat) : Writer → World
  | .stdout => { world with stdout := world.stdout ++ data }
  | .file key => { world with files := mapSet world.files key (mapIndex world.files key ++ data) }

/-- One call of `m.Minify`, as the job loop observes it. -/
structure Call where
  input : Str
  mediatype : Str
  resolved : Option Minifier
deriving DecidableEq

/-- The variables of `main` that live across the iterations of the job loop,
the world, and the record of the calls of `m.Minify` made so far. -/
structure LoopState where
  ext : Str
  mediatype : Str
  r : Reader
  w : Writer
  world : World
  calls : List Call

/-- The ways in which the loop ends the process with status 1. -/
inductive Failure where
  | openInput
  | createOutput
  | transform
deriving DecidableEq

/-- Lines 73–89 of `main`: open the input, buffer it when the input path and
the output path are the same string, and take the extension from the input
path while `ext` is empty. -/
def acquireInput (s : LoopState) (input output : Str) : Except Failure LoopState :=
  if input ≠ [] then
    match s.world.files.lookup (s.world.resolve input) with
    | none => .error .openInput
    | some _ =>
      let s1 : LoopState := { s with r := .file (s.world.resolve input) 0 }
      let s2 : LoopState :=
        if input = output then
          let res := readAll s1.world s1.r
          { s1 with r := .buffer res.1, world := res.2.2 }
        else s1
      .ok (if s2.ext = [] then { s2 with ext := Ext input } else s2)
  else .ok s

/-- Lines 90–98 of `main`: `os.Create` empties the file that the output path
names, or creates it, whatever path it was opened under before. -/
def acquireOutput (s : LoopState) (output : Str) : Except Failure LoopState :=
  if output ≠ [] then
    if output ∈ s.world.denied then .error .createOutput
    else .ok { s with w := .file (s.world.resolve output),
                      world := { s.world with
                        files := mapSet s.world.files (s.world.resolve output) [] } }
  else .ok s

/-- Lines 99–101 of `main`: look the extension up in the table. -/
def setMediatype (s : LoopState) : LoopState :=
  if s.ext ≠ [] then { s with mediatype := mapIndex extMime s.ext } else s

/-- Lines 102–109 of `main`. Modelled from the spec: `m.Minify` resolves the
media type in the registry; a resolved function is invoked on the streams and
its error is fatal; when nothing resolves, `ErrNotExist` is returned without
touching the streams and `main` copies the input to the output. -/
def transformOrCopy (transform : Minifier → List Nat → TransformResult) (s : LoopState)
    (input : Str) : Except Failure LoopState :=
  let resolved := registry.resolve s.mediatype
  let s1 : LoopState := { s with calls := s.calls ++ [⟨input, s.mediatype, resolved⟩] }
  let res := readAll s1.world s1.r
  match resolved with
  | some f =>
    let out := transform f res.1
    if out.failed then .error .transform
    else .ok { s1 with r := res.2.1, world := writeAll res.2.2 out.written s1.w }
  | none => .ok { s1 with r := res.2.1, world := writeAll res.2.2 res.1 s1.w }

/-- The body of the job loop of `main` (lines 70–110) for one map entry. -/
def loopBody (transform : Minifier → List Nat → TransformResult) (s : LoopState)
    (job : Str × Str) : Except Failure LoopState :=
  match acquireInput s job.1 job.2 with
  | .error e => .error e
  | .ok s1 =>
    match acquireOutput s1 job.2 with
    | .error e => .error e
    | .ok s2 => transformOrCopy transform (setMediatype s2) job.1

/-- The job loop of `main` over the entries of `filenames` in the order in
which `range` yields them. -/
def runJobs (transform : Minifier → List Nat → TransformResult) :
    LoopState → List (Str × Str) → Except Failure LoopState
  | s, [] => .ok s
  | s, job :: jobs =>
    match loopBody transform s job with
    | .error e => .error e
    | .ok s1 => runJobs transform s1 jobs

/-- The command line after `flag.Parse`. -/
structure Flags where
  input : Str
  output : Str
  ext : Str
  directory : Str
  recursive : Bool

/-- The state at the head of the job loop (lines 52–54). -/
def initState (fl : Flags) (world : World) : LoopState :=
  { ext := fl.ext, mediatype := [], r := .stdin, w := .stdout, world := world, calls := [] }

/-- The map `filenames` of `main` (lines 63–68); `none` is a panic of `ioNames`. -/
def filenames (unicodeLower : Str → Str) (fl : Flags) (fs : Option Entry) :
    Option (List (Str × Str)) :=
  if fl.directory ≠ [] then ioNames unicodeLower fs fl.directory fl.recursive
  else some [(fl.input, fl.output)]

/-- How a run of `main` ends. -/
inductive Outcome where
  | done (s : LoopState)
  | exit1 (f : Failure)
  | panic

/-- The function `main`: `fs` is what the file system holds at the directory
given with `-d`, and `order` is the order in which `range` yields the entries
of the map. -/
def main (unicodeLower : Str → Str) (transform : Minifier → List Nat → TransformResult)
    (order : List (Str × Str) → List (Str × Str)) (fl : Flags) (fs : Option Entry)
    (world : World) : Outcome :=
  match filenames unicodeLower fl fs with
  | none => .panic
  | some names =>
    match runJobs transform (initState fl world) (order names) with
    | .error e => .exit1 e
    | .ok s => .done s

/-- The media types of the calls of `m.Minify`, with the input of each. -/
def Outcome.calls : Outcome → List Call
  | .done s => s.calls
  | _ => []

/-- The files of the world at the end of a run that ended without an error. -/
def Outcome.files : Outcome → List (Str × List Nat)
  | .done s => s.world.files
  | _ => []

/-! ## Predicates used to state the enumerator's contract -/

/-- A well-formed map of input paths to output paths: no key occurs twice and
every key is sent to its `minExt` image. -/
def WellFormed (m : List (Str × Str)) : Prop :=
  (m.map Prod.fst).Nodup ∧ ∀ e ∈ m, e.2 = minExt e.1

/-- The map `m` is `names` extended by the eligible candidates: an eligible
path is sent to its `minExt` image, every other path is as in `names`. -/
def Extends (unicodeLower : Str → Str) (names : List (Str × Str))
    (cands : List (Str × FileInfo)) (m : List (Str × Str)) : Prop :=
  ∀ p, m.lookup p =
    if p ∈ eligiblePaths unicodeLower cands then some (minExt p) else names.lookup p

/-- Every candidate that is not a directory has a non-empty name, as every
entry of a real directory has. -/
def NamesOk (cands : List (Str × FileInfo)) : Prop :=
  ∀ c ∈ cands, c.2.isDir = false → c.2.name ≠ []

/-! ## The extension check as the specification words it -/

/-- The six keys of the Extension Table, as the specification lists them. -/
def tableKeys : List Str :=
  [ascii ".css", ascii ".html", ascii ".js", ascii ".json", ascii ".svg", ascii ".xml"]

/-- A byte matches a byte of a lower-case key when the two are equal or the
key byte is a letter `a`–`z` and the byte is the same letter in upper case. -/
def matchesFoldByte (x k : Nat) : Bool :=
  x == k || (decide (97 ≤ k) && decide (k ≤ 122) && x + 32 == k)

/-- A string equals a lower-case key up to the case of its ASCII letters. -/
def matchesFold : Str → Str → Bool
  | [], [] => true
  | x :: xs, k :: ks => matchesFoldByte x k && matchesFold xs ks
  | _, _ => false

/-! ## Concrete inputs -/

/-- The directory `dir` holding `a.css`, `b.min.css`, `.hidden.js` and `sub/c.js`. -/
def exampleDir : Entry :=
  .dir (ascii "dir") (some [.file (ascii "a.css"), .file (ascii "b.min.css"),
    .file (ascii ".hidden.js"), .dir (ascii "sub") (some [.file (ascii "c.js")])])

/-- The directory `dir` holding `a.css` and `b.js`. -/
def twoFileDir : Entry :=
  .dir (ascii "dir") (some [.file (ascii "a.css"), .file (ascii "b.js")])

/-- The contents of the files of `twoFileDir`, in a world without links, where
two paths name one file exactly when they clean to the same path. -/
def twoFileWorld : World :=
  { resolve := Clean,
    files := [(ascii "dir/a.css", ascii "a { color: red }"), (ascii "dir/b.js", ascii "var x = 1;")],
    denied := [], stdin := .stream [], stdout := [] }

/-- A world without links with the one file `path`. -/
def oneFileWorld (path : Str) (content : List Nat) : World :=
  { resolve := Clean, files := [(Clean path, content)], denied := [], stdin := .stream [],
    stdout := [] }

/-- A world without links with the one file `out.txt`, to which standard input
is redirected. -/
def redirectedWorld (content : List Nat) : World :=
  { resolve := Clean, files := [(ascii "out.txt", content)], denied := [],
    stdin := .file (ascii "out.txt") 0, stdout := [] }

/-- A stand-in for the minifier functions, which writes its input back and
never fails. -/
def copyTransform : Minifier → List Nat → TransformResult :=
  fun _ data => ⟨data, false⟩

/-! # Properties -/

/-! ## Facts about the string helpers -/

theorem ascii_dotMin : ascii ".min" = [46, 109, 105, 110] := by decide

theorem ascii_dotMinDot : ascii ".min." = [46, 109, 105, 110, 46] := by decide

/-- Below index `n` there is no byte `c`: the scan finds nothing. -/
theorem lastIndexByteFrom_none (s : Str) (c : Nat) (n : Nat)
    (h : ∀ i, i < n → s.getD i 0 ≠ c) : lastIndexByteFrom s c n = -1 := by
  induction n with
  | zero => rfl
  | succ k ih =>
    have hk : s.getD k 0 ≠ c := h k (Nat.lt_succ_self k)
    simp only [lastIndexByteFrom, hk, if_false]
    exact ih (fun i hi => h i (Nat.lt_succ_of_lt hi))

theorem getD_of_mem_free (s : Str) (c : Nat) (hc : c ∉ s) (i : Nat) (hi : i < s.length) :
    s.getD i 0 ≠ c := by
  intro h
  apply hc
  rw [List.getD_eq_getElem s 0 hi] at h
  rw [← h]
  exact List.getElem_mem hi

/-- A string without the byte `c` has no last index of `c`. -/
theorem LastIndex_of_not_mem (s : Str) (c : Nat) (hc : c ∉ s) : LastIndex s c = -1 :=
  lastIndexByteFrom_none s c s.length (fun i hi => getD_of_mem_free s c hc i hi)

theorem lastIndexByteFrom_split (stem ext : Str) (c : Nat) (hc : c ∉ ext) (k : Nat)
    (hk : k ≤ ext.length) :
    lastIndexByteFrom (stem ++ c :: ext) c (stem.length + 1 + k) = (stem.length : Int) := by
  induction k with
  | zero =>
    have h0 : (stem ++ c :: ext).getD stem.length 0 = c := by
      simp only [List.getD_eq_getElem?_getD]
      rw [List.getElem?_append_right (Nat.le_refl _)]
      simp
    simp only [Nat.add_zero, lastIndexByteFrom, h0, if_true]
  | succ j ih =>
    have hj : j < ext.length := hk
    have hne : (stem ++ c :: ext).getD (stem.length + 1 + j) 0 ≠ c := by
      have : (stem ++ c :: ext).getD (stem.length + 1 + j) 0 = ext.getD j 0 := by
        simp only [List.getD_eq_getElem?_getD]
        rw [List.getElem?_append_right (by omega)]
        have e : stem.length + 1 + j - stem.length = j + 1 := by omega
        rw [e]
        simp
      rw [this]
      exact getD_of_mem_free ext c hc j hj
    have e : stem.length + 1 + (j + 1) = (stem.length + 1 + j) + 1 := by omega
    rw [e]
    simp only [lastIndexByteFrom, hne, if_false]
    exact ih (Nat.le_of_lt hj)

/-- The last index of `c` in `stem ++ c :: ext`, where `ext` is free of `c`. -/
theorem LastIndex_split (stem ext : Str) (c : Nat) (hc : c ∉ ext) :
    LastIndex (stem ++ c :: ext) c = (stem.length : Int) := by
  have h := lastIndexByteFrom_split stem ext c hc ext.length (Nat.le_refl _)
  have e : (stem ++ c :: ext).length = stem.length + 1 + ext.length := by
    simp; omega
  unfold LastIndex
  rw [e]
  exact h

/-- A string containing `c` splits at the last occurrence of `c`. -/
theorem exists_last_split (s : Str) (c : Nat) (h : c ∈ s) :
    ∃ stem ext, s = stem ++ c :: ext ∧ c ∉ ext := by
  induction s with
  | nil => simp at h
  | cons x xs ih =>
    by_cases hx : c ∈ xs
    · obtain ⟨stem, ext, he, hn⟩ := ih hx
      exact ⟨x :: stem, ext, by simp [he], hn⟩
    · have hxc : c = x := by
        rcases List.mem_cons.mp h with h1 | h1
        · exact h1
        · exact absurd h1 hx
      exact ⟨[], xs, by simp [hxc], hx⟩

/-- The split at the last occurrence of `c` is unique. -/
theorem last_split_unique (a b a' b' : Str) (c : Nat) (hb : c ∉ b) (hb' : c ∉ b')
    (h : a ++ c :: b = a' ++ c :: b') : a = a' ∧ b = b' := by
  induction a generalizing a' with
  | nil =>
    cases a' with
    | nil => simpa using h
    | cons y ys =>
      simp only [List.nil_append, List.cons_append, List.cons.injEq] at h
      exfalso
      apply hb
      rw [h.2]
      simp
  | cons x xs ih =>
    cases a' with
    | nil =>
      simp only [List.nil_append, List.cons_append, List.cons.injEq] at h
      exfalso
      apply hb'
      rw [← h.2]
      simp
    | cons y ys =>
      simp only [List.cons_append, List.cons.injEq] at h
      obtain ⟨h1, h2⟩ := ih ys h.2
      exact ⟨by rw [h.1, h1], h2⟩

/-! ## The output namer -/

/-- A path without a dot gets `.min` appended. -/
theorem minExt_no_dot (p : Str) (h : dotByte ∉ p) : minExt p = p ++ ascii ".min" := by
  simp [minExt, LastIndex_of_not_mem p dotByte h]

/-- In a path split at its last dot, `.min` is inserted before that dot. -/
theorem minExt_split (stem ext : Str) (h : dotByte ∉ ext) :
    minExt (stem ++ dotByte :: ext) = stem ++ ascii ".min" ++ dotByte :: ext := by
  have hl := LastIndex_split stem ext dotByte h
  have hne : (stem.length : Int) ≠ -1 := by omega
  simp only [minExt, hl, hne, if_false, Int.toNat_ofNat]
  simp [List.take_append_eq_append_take, List.drop_append_eq_append_drop]

/-- The length of `minExt p` is the length of `p` plus four. -/
theorem minExt_length (p : Str) : (minExt p).length = p.length + 4 := by
  by_cases h : dotByte ∈ p
  · obtain ⟨stem, ext, he, hn⟩ := exists_last_split p dotByte h
    rw [he, minExt_split stem ext hn, ascii_dotMin]
    simp
    omega
  · rw [minExt_no_dot p h, ascii_dotMin]
    simp

/-- Distinct paths have distinct `minExt` images. -/
theorem minExt_inj (p q : Str) (h : minExt p = minExt q) : p = q := by
  by_cases hp : dotByte ∈ p <;> by_cases hq : dotByte ∈ q
  · obtain ⟨s1, e1, h1, n1⟩ := exists_last_split p dotByte hp
    obtain ⟨s2, e2, h2, n2⟩ := exists_last_split q dotByte hq
    rw [h1, h2, minExt_split s1 e1 n1, minExt_split s2 e2 n2] at h
    obtain ⟨ha, hb⟩ := last_split_unique _ _ _ _ dotByte n1 n2 h
    have := List.append_cancel_right ha
    rw [h1, h2, this, hb]
  · obtain ⟨s1, e1, h1, n1⟩ := exists_last_split p dotByte hp
    rw [h1, minExt_split s1 e1 n1, minExt_no_dot q hq, ascii_dotMin] at h
    have h' : (s1 ++ [46, 109, 105, 110]) ++ dotByte :: e1 = q ++ dotByte :: [109, 105, 110] := by
      simpa using h
    obtain ⟨ha, _⟩ := last_split_unique _ _ _ _ dotByte n1 (by decide) h'
    exfalso
    apply hq
    rw [← ha]
    simp
  · obtain ⟨s2, e2, h2, n2⟩ := exists_last_split q dotByte hq
    rw [h2, minExt_split s2 e2 n2, minExt_no_dot p hp, ascii_dotMin] at h
    have h' : p ++ dotByte :: [109, 105, 110] = (s2 ++ [46, 109, 105, 110]) ++ dotByte :: e2 := by
      simpa using h
    obtain ⟨ha, _⟩ := last_split_unique _ _ _ _ dotByte (by decide) n2 h'
    exfalso
    apply hp
    rw [ha]
    simp
  · rw [minExt_no_dot p hp, minExt_no_dot q hq] at h
    exact List.append_cancel_right h



/-! ## Substrings -/

theorem startsWith_iff (s pre : Str) : startsWith s pre = true ↔ ∃ b, s = pre ++ b := by
  constructor
  · intro h
    simp only [startsWith, Bool.and_eq_true, decide_eq_true_eq, beq_iff_eq] at h
    refine ⟨s.drop pre.length, ?_⟩
    have := List.take_append_drop pre.length s
    rw [h.2] at this
    exact this.symm
  · rintro ⟨b, rfl⟩
    simp [startsWith]

/-- The test `Contains s sub` holds exactly when `sub` occurs somewhere in `s`. -/
theorem Contains_iff (s sub : Str) : Contains s sub = true ↔ ∃ a b, s = a ++ sub ++ b := by
  induction s with
  | nil =>
    simp only [Contains, startsWith_iff]
    constructor
    · rintro ⟨b, hb⟩
      exact ⟨[], b, by simpa using hb⟩
    · rintro ⟨a, b, hab⟩
      have h1 : a ++ sub ++ b = [] := hab.symm
      simp only [List.append_eq_nil] at h1
      exact ⟨[], by simp [h1.1.2]⟩
  | cons x xs ih =>
    simp only [Contains, Bool.or_eq_true, startsWith_iff, ih]
    constructor
    · rintro (⟨b, hb⟩ | ⟨a, b, hab⟩)
      · exact ⟨[], b, by simpa using hb⟩
      · exact ⟨x :: a, b, by simp [hab]⟩
    · rintro ⟨a, b, hab⟩
      cases a with
      | nil => exact Or.inl ⟨b, by simpa using hab⟩
      | cons y ys =>
        simp only [List.cons_append, List.cons.injEq] at hab
        exact Or.inr ⟨ys, b, by simpa using hab.2⟩

/-! ## Extensions -/

/-- The scan of `filepath.Ext` over a tail free of dots and separators arrives
at the byte before that tail. -/
theorem extFrom_tail (pre : Str) (x : Nat) (v : Str)
    (hv : ∀ c ∈ v, c ≠ dotByte ∧ c ≠ sepByte) (k : Nat) (hk : k ≤ v.length) :
    extFrom (pre ++ x :: v) (pre.length + 1 + k) =
      if x = sepByte then [] else if x = dotByte then x :: v
      else extFrom (pre ++ x :: v) pre.length := by
  induction k with
  | zero =>
    have h0 : (pre ++ x :: v).getD pre.length 0 = x := by
      simp only [List.getD_eq_getElem?_getD]
      rw [List.getElem?_append_right (Nat.le_refl _)]
      simp
    simp only [Nat.add_zero, extFrom, h0]
    simp
  | succ j ih =>
    have hj : j < v.length := hk
    have hget : (pre ++ x :: v).getD (pre.length + 1 + j) 0 = v.getD j 0 := by
      simp only [List.getD_eq_getElem?_getD]
      rw [List.getElem?_append_right (by omega)]
      have e : pre.length + 1 + j - pre.length = j + 1 := by omega
      rw [e]
      simp
    have hmem : v.getD j 0 ∈ v := by
      rw [List.getD_eq_getElem v 0 hj]
      exact List.getElem_mem hj
    have e : pre.length + 1 + (j + 1) = (pre.length + 1 + j) + 1 := by omega
    rw [e]
    simp only [extFrom, hget, (hv _ hmem).1, (hv _ hmem).2, if_false]
    exact ih (Nat.le_of_lt hj)

theorem extFrom_free (s : Str) (hs : ∀ c ∈ s, c ≠ dotByte ∧ c ≠ sepByte) (n : Nat)
    (hn : n ≤ s.length) : extFrom s n = [] := by
  induction n with
  | zero => rfl
  | succ k ih =>
    have hk : k < s.length := hn
    have hmem : s.getD k 0 ∈ s := by
      rw [List.getD_eq_getElem s 0 hk]
      exact List.getElem_mem hk
    simp only [extFrom, (hs _ hmem).1, (hs _ hmem).2, if_false]
    exact ih (Nat.le_of_lt hk)

/-- The extension of a path whose text after the last dot has no separator. -/
theorem Ext_split (u v : Str) (hd : dotByte ∉ v) (hs : sepByte ∉ v) :
    Ext (u ++ dotByte :: v) = dotByte :: v := by
  have hv : ∀ c ∈ v, c ≠ dotByte ∧ c ≠ sepByte :=
    fun c hc => ⟨fun h => hd (h ▸ hc), fun h => hs (h ▸ hc)⟩
  have h := extFrom_tail u dotByte v hv v.length (Nat.le_refl _)
  have e : (u ++ dotByte :: v).length = u.length + 1 + v.length := by
    simp; omega
  unfold Ext
  rw [e, h]
  simp

/-- A non-empty extension starts at the last dot of the path, and no separator
follows that dot. -/
theorem Ext_ne_nil (s : Str) (h : Ext s ≠ []) :
    ∃ u v, s = u ++ dotByte :: v ∧ dotByte ∉ v ∧ sepByte ∉ v ∧ Ext s = dotByte :: v := by
  -- split at the last byte that is a dot or a separator
  have key : ∀ (t : Str), (∀ c ∈ t, c ≠ dotByte ∧ c ≠ sepByte) ∨
      ∃ pre x v, t = pre ++ x :: v ∧ (x = dotByte ∨ x = sepByte) ∧
        ∀ c ∈ v, c ≠ dotByte ∧ c ≠ sepByte := by
    intro t
    induction t with
    | nil => exact Or.inl (by simp)
    | cons y ys ih =>
      rcases ih with hfree | ⟨pre, x, v, he, hx, hv⟩
      · by_cases hy : y = dotByte ∨ y = sepByte
        · exact Or.inr ⟨[], y, ys, by simp, hy, hfree⟩
        · left
          intro c hc
          rcases List.mem_cons.mp hc with h1 | h1
          · rw [h1]
            exact ⟨fun h2 => hy (Or.inl h2), fun h2 => hy (Or.inr h2)⟩
          · exact hfree c h1
      · exact Or.inr ⟨y :: pre, x, v, by simp [he], hx, hv⟩
  rcases key s with hfree | ⟨pre, x, v, he, hx, hv⟩
  · exact absurd (extFrom_free s hfree s.length (Nat.le_refl _)) h
  · have hcomp := extFrom_tail pre x v hv v.length (Nat.le_refl _)
    have e : (pre ++ x :: v).length = pre.length + 1 + v.length := by
      simp; omega
    have hE : Ext s = if x = sepByte then [] else if x = dotByte then x :: v
        else extFrom (pre ++ x :: v) pre.length := by
      rw [he]
      unfold Ext
      rw [e, hcomp]
    rcases hx with hx | hx
    · subst hx
      refine ⟨pre, v, he, fun hm => (hv _ hm).1 rfl, fun hm => (hv _ hm).2 rfl, ?_⟩
      rw [hE]
      simp
    · subst hx
      exfalso
      apply h
      rw [hE]
      simp

/-! ## The extension table -/

theorem mapHas_iff (m : List (Str × Str)) (k : Str) :
    mapHas m k = true ↔ k ∈ m.map Prod.fst := by
  induction m with
  | nil => simp [mapHas, List.lookup]
  | cons e es ih =>
    obtain ⟨a, b⟩ := e
    by_cases hk : k = a
    · subst hk
      simp [mapHas, List.lookup]
    · have hb : (k == a) = false := by simpa using hk
      have : mapHas ((a, b) :: es) k = mapHas es k := by
        simp [mapHas, List.lookup, hb]
      rw [this, ih]
      simp [hk]

theorem extMime_keys : extMime.map Prod.fst =
    [ascii ".css", ascii ".html", ascii ".js", ascii ".json", ascii ".svg", ascii ".xml"] := by
  decide

theorem ToLower_nil (unicodeLower : Str → Str) : ToLower unicodeLower [] = [] := by
  simp [ToLower]

/-! ## The file name of a path -/

theorem trimFrom_tail (a t : Str) (ha : a ≠ []) (hlast : a.getLast? ≠ some sepByte)
    (ht : ∀ c ∈ t, c = sepByte) (k : Nat) (hk : k ≤ t.length) :
    trimFrom (a ++ t) (a.length - 1 + k) = a.length - 1 := by
  have hlen : 0 < a.length := List.length_pos.mpr ha
  induction k with
  | zero =>
    rw [Nat.add_zero]
    cases hj : a.length - 1 with
    | zero => rfl
    | succ j =>
      have hget : (a ++ t).getD (j + 1) 0 ≠ sepByte := by
        intro h
        apply hlast
        have hj' : j + 1 < a.length := by omega
        simp only [List.getD_eq_getElem?_getD] at h
        rw [List.getElem?_append_left hj'] at h
        rw [List.getLast?_eq_getElem?, hj]
        rw [List.getElem?_eq_getElem hj'] at h ⊢
        simp only [Option.getD_some] at h
        rw [h]
      simp only [trimFrom, hget, if_false]
  | succ j ih =>
    have hj : j < t.length := hk
    have e : a.length - 1 + (j + 1) = (a.length - 1 + j) + 1 := by omega
    have hget : (a ++ t).getD (a.length - 1 + j + 1) 0 = sepByte := by
      simp only [List.getD_eq_getElem?_getD]
      rw [List.getElem?_append_right (by omega)]
      have e2 : a.length - 1 + j + 1 - a.length = j := by omega
      rw [e2, List.getElem?_eq_getElem hj]
      simp only [Option.getD_some]
      exact ht _ (List.getElem_mem hj)
    rw [e]
    simp only [trimFrom, hget, if_true]
    exact ih (Nat.le_of_lt hj)

theorem cutFrom_tail (d s : Str) (hs : sepByte ∉ s)
    (hd : d = [] ∨ d.getLast? = some sepByte) (k : Nat) (hk : k ≤ s.length) :
    cutFrom (d ++ s) (d.length + k) = s := by
  induction k with
  | zero =>
    rw [Nat.add_zero]
    rcases hd with hd | hd
    · subst hd
      rfl
    · cases hj : d.length with
      | zero =>
        have : d = [] := List.length_eq_zero.mp hj
        subst this
        rfl
      | succ j =>
        have hj' : j < d.length := by omega
        have hget : (d ++ s).getD j 0 = sepByte := by
          simp only [List.getD_eq_getElem?_getD]
          rw [List.getElem?_append_left hj']
          rw [List.getLast?_eq_getElem?, hj] at hd
          simp only [Nat.add_sub_cancel] at hd
          rw [hd]
          rfl
        simp only [cutFrom, hget, if_true]
        rw [← hj]
        simp
  | succ j ih =>
    have hj : j < s.length := hk
    have e : d.length + (j + 1) = (d.length + j) + 1 := by omega
    have hget : (d ++ s).getD (d.length + j) 0 ≠ sepByte := by
      simp only [List.getD_eq_getElem?_getD]
      rw [List.getElem?_append_right (by omega)]
      have e2 : d.length + j - d.length = j := by omega
      rw [e2, List.getElem?_eq_getElem hj]
      simp only [Option.getD_some]
      intro h
      exact hs (h ▸ List.getElem_mem hj)
    rw [e]
    simp only [cutFrom, hget, if_false]
    exact ih (Nat.le_of_lt hj)

/-- The file name of `d ++ s ++ t`, where `s` is a non-empty element without a
separator, `t` consists of separators and `d` is empty or ends in one. -/
theorem basename_eq (d s t : Str) (hne : s ≠ []) (hs : sepByte ∉ s)
    (ht : ∀ c ∈ t, c = sepByte) (hd : d = [] ∨ d.getLast? = some sepByte) :
    basename (d ++ s ++ t) = s := by
  have hane : d ++ s ≠ [] := by simp [hne]
  have hlast : (d ++ s).getLast? ≠ some sepByte := by
    rw [List.getLast?_append_of_ne_nil d hne]
    intro h
    exact hs (List.mem_of_mem_getLast? (Option.mem_def.mpr h))
  have h1 := trimFrom_tail (d ++ s) t hane hlast ht t.length (Nat.le_refl _)
  have hlen : 0 < s.length := List.length_pos.mpr hne
  have e1 : (d ++ s ++ t).length - 1 = (d ++ s).length - 1 + t.length := by
    simp; omega
  have e2 : (d ++ s).length - 1 + 1 = (d ++ s).length := by
    simp; omega
  have e3 : (d ++ s).length - 1 = d.length + (s.length - 1) := by
    simp; omega
  unfold basename
  simp only []
  rw [e1, h1, e2, List.take_left, e3]
  exact cutFrom_tail d s hs hd (s.length - 1) (by omega)

/-- Every string splits into a directory part that is empty or ends in a
separator and a last element without a separator. -/
theorem exists_dir_split (u : Str) :
    ∃ d s, u = d ++ s ∧ sepByte ∉ s ∧ (d = [] ∨ d.getLast? = some sepByte) := by
  induction u with
  | nil => exact ⟨[], [], rfl, by simp, Or.inl rfl⟩
  | cons x xs ih =>
    obtain ⟨d, s, he, hs, hd⟩ := ih
    rcases hd with hd | hd
    · subst hd
      by_cases hx : x = sepByte
      · exact ⟨[x], s, by simp [he], hs, Or.inr (by simp [hx])⟩
      · refine ⟨[], x :: s, by simp [he], ?_, Or.inl rfl⟩
        intro hm
        rcases List.mem_cons.mp hm with h1 | h1
        · exact hx h1.symm
        · exact hs h1
    · refine ⟨x :: d, s, by simp [he], hs, Or.inr ?_⟩
      cases d with
      | nil => simp at hd
      | cons y ys => simpa [List.getLast?_cons_cons] using hd

/-- A string with a byte that is no separator splits into directory part, last
element and trailing separators. -/
theorem exists_name_split (x : Str) (h : ∃ c ∈ x, c ≠ sepByte) :
    ∃ d s t, x = d ++ s ++ t ∧ s ≠ [] ∧ sepByte ∉ s ∧ (∀ c ∈ t, c = sepByte) ∧
      (d = [] ∨ d.getLast? = some sepByte) := by
  induction x with
  | nil => simp at h
  | cons y ys ih =>
    by_cases hys : ∃ c ∈ ys, c ≠ sepByte
    · obtain ⟨d, s, t, he, hne, hs, ht, hd⟩ := ih hys
      rcases hd with hd | hd
      · subst hd
        by_cases hy : y = sepByte
        · exact ⟨[y], s, t, by simp [he], hne, hs, ht, Or.inr (by simp [hy])⟩
        · refine ⟨[], y :: s, t, by simp [he], by simp, ?_, ht, Or.inl rfl⟩
          intro hm
          rcases List.mem_cons.mp hm with h1 | h1
          · exact hy h1.symm
          · exact hs h1
      · refine ⟨y :: d, s, t, by simp [he], hne, hs, ht, Or.inr ?_⟩
        cases d with
        | nil => simp at hd
        | cons z zs => simpa [List.getLast?_cons_cons] using hd
    · have hall : ∀ c ∈ ys, c = sepByte := by
        intro c hc
        by_contra hne
        exact hys ⟨c, hc, hne⟩
      obtain ⟨c, hc, hcne⟩ := h
      have hy : y ≠ sepByte := by
        rcases List.mem_cons.mp hc with h1 | h1
        · exact h1 ▸ hcne
        · exact absurd (hall c h1) hcne
      refine ⟨[], [y], ys, by simp, by simp, ?_, hall, Or.inl rfl⟩
      simpa using hy.symm



/-! ## The output namer against its specification -/

theorem takeWhile_split (a b : Str) (x : Nat) (q : Nat → Bool) (ha : ∀ c ∈ a, q c = true)
    (hx : q x = false) : (a ++ x :: b).takeWhile q = a := by
  induction a with
  | nil => simp [List.takeWhile, hx]
  | cons y ys ih =>
    have hy : q y = true := ha y (by simp)
    simp only [List.cons_append, List.takeWhile_cons, hy, if_true]
    rw [ih (fun c hc => ha c (List.mem_cons_of_mem _ hc))]

theorem dropWhile_split (a b : Str) (x : Nat) (q : Nat → Bool) (ha : ∀ c ∈ a, q c = true)
    (hx : q x = false) : (a ++ x :: b).dropWhile q = x :: b := by
  induction a with
  | nil => simp [List.dropWhile, hx]
  | cons y ys ih =>
    have hy : q y = true := ha y (by simp)
    simp only [List.cons_append, List.dropWhile_cons, hy, if_true]
    exact ih (fun c hc => ha c (List.mem_cons_of_mem _ hc))

theorem deriveOutputPath_split (stem ext : Str) (h : dotByte ∉ ext) :
    deriveOutputPath (stem ++ dotByte :: ext) = stem ++ ascii ".min." ++ ext := by
  have hmem : dotByte ∈ stem ++ dotByte :: ext := by simp
  have hrev : (stem ++ dotByte :: ext).reverse = ext.reverse ++ dotByte :: stem.reverse := by
    simp
  have hfree : ∀ c ∈ ext.reverse, (fun c => c != dotByte) c = true := by
    intro c hc
    have hc' : c ∈ ext := List.mem_reverse.mp hc
    have : c ≠ dotByte := fun e => h (e ▸ hc')
    simpa using this
  have hx : (fun c => c != dotByte) dotByte = false := by simp
  simp only [deriveOutputPath, hmem, if_true, hrev]
  rw [takeWhile_split _ _ _ _ hfree hx, dropWhile_split _ _ _ _ hfree hx]
  simp

theorem minExt_eq_deriveOutputPath (p : Str) : minExt p = deriveOutputPath p := by
  by_cases h : dotByte ∈ p
  · obtain ⟨stem, ext, he, hn⟩ := exists_last_split p dotByte h
    rw [he, minExt_split stem ext hn, deriveOutputPath_split stem ext hn, ascii_dotMin,
      ascii_dotMinDot]
    simp
  · rw [minExt_no_dot p h]
    simp [deriveOutputPath, h]

/-! ## The eligibility filter -/

theorem validFile_dir (unicodeLower : Str → Str) (n : Str) :
    validFile unicodeLower (some ⟨n, true⟩) = some false := by
  simp [validFile]

/-- On a non-empty name the filter returns a Boolean, which is `true` exactly
when the four checks pass. -/
theorem validFile_eq (unicodeLower : Str → Str) (info : FileInfo) (hname : info.name ≠ []) :
    validFile unicodeLower (some info) =
      some (!info.isDir && !(info.name.head? == some dotByte) &&
        !Contains info.name (ascii ".min.") &&
        mapHas extMime (ToLower unicodeLower (Ext info.name))) := by
  obtain ⟨name, isDir⟩ := info
  cases name with
  | nil => exact absurd rfl hname
  | cons c cs =>
    cases isDir with
    | true => simp [validFile]
    | false =>
      by_cases hc : c = dotByte
      · simp [validFile, hc]
      · by_cases hm : Contains (c :: cs) (ascii ".min.") = true
        · simp [validFile, hc, hm]
        · have hm' : Contains (c :: cs) (ascii ".min.") = false := by simpa using hm
          simp [validFile, hc, hm']

/-- The filter accepts only names with an extension. -/
theorem validFile_true_ext (unicodeLower : Str → Str) (info : FileInfo)
    (h : validFile unicodeLower (some info) = some true) :
    info.isDir = false ∧ info.name.head? ≠ some dotByte ∧
      Contains info.name (ascii ".min.") = false ∧
      mapHas extMime (ToLower unicodeLower (Ext info.name)) = true := by
  have hname : info.name ≠ [] := by
    intro hn
    obtain ⟨name, isDir⟩ := info
    simp only at hn
    subst hn
    cases isDir <;> simp [validFile] at h
  rw [validFile_eq unicodeLower info hname] at h
  simp only [Option.some.injEq, Bool.and_eq_true, Bool.not_eq_true', beq_eq_false_iff_ne] at h
  obtain ⟨⟨⟨h1, h2⟩, h3⟩, h4⟩ := h
  exact ⟨h1, h2, h3, h4⟩

theorem ToLower_dotMin (unicodeLower : Str → Str) :
    ToLower unicodeLower (dotByte :: [109, 105, 110]) = [46, 109, 105, 110] := rfl

/-- The file name of a `minExt` image is never accepted by the filter. -/
theorem validFile_minExt_ne_true (unicodeLower : Str → Str) (p : Str) (isDir : Bool) :
    validFile unicodeLower (some ⟨basename (minExt p), isDir⟩) ≠ some true := by
  intro hv
  obtain ⟨_, _, hcont, hhas⟩ := validFile_true_ext unicodeLower _ hv
  simp only at hcont hhas
  -- the name has an extension, so it splits at its last dot
  have hext : Ext (basename (minExt p)) ≠ [] := by
    intro he
    rw [he, ToLower_nil] at hhas
    revert hhas
    decide
  obtain ⟨u, v, hn, hvd, hvs, hE⟩ := Ext_ne_nil _ hext
  -- the image holds a byte that is no separator
  have hnonsep : ∃ c ∈ minExt p, c ≠ sepByte := by
    by_cases h : dotByte ∈ p
    · obtain ⟨stem, ext, he, hne⟩ := exists_last_split p dotByte h
      exact ⟨dotByte, by rw [he, minExt_split stem ext hne]; simp, by decide⟩
    · exact ⟨dotByte, by rw [minExt_no_dot p h, ascii_dotMin]; simp, by decide⟩
  obtain ⟨d, s, t, hq, hsne, hss, ht, hd⟩ := exists_name_split _ hnonsep
  have hb : basename (minExt p) = s := by
    rw [hq]
    exact basename_eq d s t hsne hss ht hd
  rw [hb] at hn hcont hhas hE
  have htd : dotByte ∉ v ++ t := by
    intro hm
    rcases List.mem_append.mp hm with h1 | h1
    · exact hvd h1
    · exact absurd (ht _ h1) (by decide)
  have hq' : minExt p = (d ++ u) ++ dotByte :: (v ++ t) := by
    rw [hq, hn]
    simp
  by_cases h : dotByte ∈ p
  · obtain ⟨stem, ext, he, hne⟩ := exists_last_split p dotByte h
    rw [he, minExt_split stem ext hne] at hq'
    obtain ⟨hdu, _⟩ := last_split_unique _ _ _ _ dotByte hne htd hq'
    rcases List.append_eq_append_iff.mp hdu with ⟨c', hs', hc'⟩ | ⟨a', _, hu'⟩
    · -- the directory part would end inside `.min`
      rcases List.eq_nil_or_concat c' with hnil | ⟨L, b, hLb⟩
      · subst hnil
        have hu' : u = ascii ".min" := by simpa using hc'.symm
        have : Contains s (ascii ".min.") = true := by
          rw [Contains_iff]
          refine ⟨[], v, ?_⟩
          rw [hn, hu', ascii_dotMin, ascii_dotMinDot]
          simp
        rw [this] at hcont
        exact absurd hcont (by decide)
      · have hdlast : d.getLast? = some b := by
          rw [hs', hLb, List.concat_eq_append, ← List.append_assoc, List.getLast?_concat]
        have hb47 : b = sepByte := by
          rcases hd with hd | hd
          · rw [hd] at hdlast
            simp at hdlast
          · rw [hd] at hdlast
            exact (Option.some.inj hdlast).symm
        have hbmem : b ∈ ascii ".min" := by
          rw [hc', hLb]
          simp
        rw [hb47, ascii_dotMin] at hbmem
        exact absurd hbmem (by decide)
    · -- the name itself ends its stem with `.min`
      have : Contains s (ascii ".min.") = true := by
        rw [Contains_iff]
        refine ⟨a', v, ?_⟩
        rw [hn, hu', ascii_dotMin, ascii_dotMinDot]
        simp
      rw [this] at hcont
      exact absurd hcont (by decide)
  · rw [minExt_no_dot p h, ascii_dotMin] at hq'
    have hq2 : p ++ dotByte :: [109, 105, 110] = (d ++ u) ++ dotByte :: (v ++ t) := by
      simpa using hq'
    obtain ⟨_, hvt⟩ := last_split_unique _ _ _ _ dotByte (by decide) htd hq2
    have htnil : t = [] := by
      rcases List.eq_nil_or_concat t with hnil | ⟨L, b, hLb⟩
      · exact hnil
      · exfalso
        have hb47 : b = sepByte := ht b (by rw [hLb]; simp)
        have hbmem : b ∈ ([109, 105, 110] : Str) := by
          rw [hvt, hLb]
          simp
        rw [hb47] at hbmem
        exact absurd hbmem (by decide)
    have hvmin : v = [109, 105, 110] := by
      rw [htnil] at hvt
      simpa using hvt.symm
    rw [hE, hvmin, ToLower_dotMin] at hhas
    revert hhas
    decide

/-- The file name of a `minExt` image is not empty. -/
theorem basename_minExt_ne_nil (p : Str) : basename (minExt p) ≠ [] := by
  have hnonsep : ∃ c ∈ minExt p, c ≠ sepByte := by
    by_cases h : dotByte ∈ p
    · obtain ⟨stem, ext, he, hne⟩ := exists_last_split p dotByte h
      exact ⟨dotByte, by rw [he, minExt_split stem ext hne]; simp, by decide⟩
    · exact ⟨dotByte, by rw [minExt_no_dot p h, ascii_dotMin]; simp, by decide⟩
  obtain ⟨d, s, t, hq, hsne, hss, ht, hd⟩ := exists_name_split _ hnonsep
  rw [hq, basename_eq d s t hsne hss ht hd]
  exact hsne

/-- When the path has an extension, the file name of its `minExt` image
contains the marker `.min.`. -/
theorem basename_minExt_contains (p : Str) (h : Ext p ≠ []) :
    Contains (basename (minExt p)) (ascii ".min.") = true := by
  obtain ⟨u, v, hp, hvd, hvs, _⟩ := Ext_ne_nil p h
  obtain ⟨d, s, hu, hs, hd⟩ := exists_dir_split u
  have hq : minExt p = d ++ (s ++ ascii ".min." ++ v) ++ [] := by
    rw [hp, minExt_split u v hvd, hu, ascii_dotMin, ascii_dotMinDot]
    simp
  have hne : s ++ ascii ".min." ++ v ≠ [] := by
    rw [ascii_dotMinDot]
    simp
  have hsep : sepByte ∉ s ++ ascii ".min." ++ v := by
    rw [ascii_dotMinDot]
    intro hm
    rcases List.mem_append.mp hm with h1 | h1
    · rcases List.mem_append.mp h1 with h2 | h2
      · exact hs h2
      · exact absurd h2 (by decide)
    · exact hvs h1
  rw [hq, basename_eq d _ [] hne hsep (by simp) hd, Contains_iff]
  exact ⟨s, v, rfl⟩



/-! ## Maps -/

theorem lookup_mapSet_self (m : List (Str × Str)) (k v : Str) :
    (mapSet m k v).lookup k = some v := by
  induction m with
  | nil => simp [mapSet, List.lookup]
  | cons e es ih =>
    obtain ⟨a, b⟩ := e
    by_cases ha : a = k
    · subst ha
      simpa [mapSet, List.filter] using ih
    · have h1 : (a != k) = true := by simpa using ha
      have h2 : (k == a) = false := by simpa using fun h => ha h.symm
      simp only [mapSet, List.filter, h1, List.cons_append, List.lookup, h2]
      exact ih

theorem lookup_mapSet_ne (m : List (Str × Str)) (k v p : Str) (hp : p ≠ k) :
    (mapSet m k v).lookup p = m.lookup p := by
  induction m with
  | nil =>
    have h2 : (p == k) = false := by simpa using hp
    simp [mapSet, List.lookup, h2]
  | cons e es ih =>
    obtain ⟨a, b⟩ := e
    by_cases ha : a = k
    · subst ha
      have h2 : (p == a) = false := by simpa using hp
      have h1 : (a != a) = false := by simp
      simp only [mapSet, List.filter, h1, List.lookup, h2]
      exact ih
    · have h1 : (a != k) = true := by simpa using ha
      simp only [mapSet, List.filter, h1, List.cons_append, List.lookup]
      cases hpa : p == a with
      | true => rfl
      | false => exact ih

theorem mem_mapSet (m : List (Str × Str)) (k v : Str) (e : Str × Str)
    (he : e ∈ mapSet m k v) : (e ∈ m ∧ e.1 ≠ k) ∨ e = (k, v) := by
  simp only [mapSet, List.mem_append, List.mem_filter, List.mem_singleton] at he
  rcases he with ⟨h1, h2⟩ | h
  · exact Or.inl ⟨h1, by simpa using h2⟩
  · exact Or.inr h

theorem WellFormed_nil : WellFormed [] := by
  simp [WellFormed]

theorem WellFormed_mapSet (m : List (Str × Str)) (k : Str) (h : WellFormed m) :
    WellFormed (mapSet m k (minExt k)) := by
  constructor
  · have hsub : ((m.filter (fun e => e.1 != k)).map Prod.fst).Nodup :=
      h.1.sublist ((List.filter_sublist m).map Prod.fst)
    simp only [mapSet, List.map_append, List.map_cons, List.map_nil]
    rw [List.nodup_append]
    refine ⟨hsub, List.nodup_singleton k, ?_⟩
    intro a ha hk
    rw [List.mem_singleton] at hk
    rw [List.mem_map] at ha
    obtain ⟨e, he, hea⟩ := ha
    rw [List.mem_filter] at he
    have : e.1 ≠ k := by simpa using he.2
    exact this (hea.trans hk)
  · intro e he
    rcases mem_mapSet m k _ e he with ⟨h1, _⟩ | h1
    · exact h.2 e h1
    · rw [h1]

/-! ## The enumerator against its specification -/

theorem eligiblePaths_append (unicodeLower : Str → Str) (a b : List (Str × FileInfo)) :
    eligiblePaths unicodeLower (a ++ b) =
      eligiblePaths unicodeLower a ++ eligiblePaths unicodeLower b := by
  simp [eligiblePaths, List.filter_append]

theorem eligiblePaths_cons_dir (unicodeLower : Str → Str) (path n : Str)
    (cands : List (Str × FileInfo)) :
    eligiblePaths unicodeLower ((path, ⟨n, true⟩) :: cands) =
      eligiblePaths unicodeLower cands := by
  simp [eligiblePaths, List.filter, validFile_dir]

theorem Extends_refl (unicodeLower : Str → Str) (names : List (Str × Str)) :
    Extends unicodeLower names [] names := by
  intro p
  simp [eligiblePaths]

theorem Extends_trans (unicodeLower : Str → Str) (names m1 m2 : List (Str × Str))
    (c1 c2 : List (Str × FileInfo)) (h1 : Extends unicodeLower names c1 m1)
    (h2 : Extends unicodeLower m1 c2 m2) : Extends unicodeLower names (c1 ++ c2) m2 := by
  intro p
  rw [h2 p, h1 p, eligiblePaths_append]
  by_cases hp2 : p ∈ eligiblePaths unicodeLower c2
  · simp [hp2]
  · by_cases hp1 : p ∈ eligiblePaths unicodeLower c1
    · simp [hp1]
    · simp [hp1, hp2]

/-- One call of the walk callback on an existing entry. -/
theorem walkFn_spec (unicodeLower : Str → Str) (path : Str) (fi : FileInfo)
    (names : List (Str × Str)) (hname : fi.isDir = false → fi.name ≠ []) :
    ∃ m, walkFn unicodeLower path (some fi) names = some m ∧
      (WellFormed names → WellFormed m) ∧ Extends unicodeLower names [(path, fi)] m := by
  obtain ⟨n, isDir⟩ := fi
  cases isDir with
  | true =>
    refine ⟨names, by simp [walkFn, validFile_dir], id, ?_⟩
    intro p
    rw [eligiblePaths_cons_dir]
    simp [eligiblePaths]
  | false =>
    have hv := validFile_eq unicodeLower ⟨n, false⟩ (hname rfl)
    generalize hb : (!(FileInfo.mk n false).isDir && !((FileInfo.mk n false).name.head? ==
      some dotByte) && !Contains (FileInfo.mk n false).name (ascii ".min.") &&
      mapHas extMime (ToLower unicodeLower (Ext (FileInfo.mk n false).name))) = b at hv
    cases b with
    | false =>
      refine ⟨names, by simp [walkFn, hv], id, ?_⟩
      intro p
      simp [eligiblePaths, List.filter, hv]
    | true =>
      refine ⟨mapSet names path (minExt path), by simp [walkFn, hv],
        WellFormed_mapSet names path, ?_⟩
      intro p
      by_cases hp : p = path
      · subst hp
        simp [eligiblePaths, List.filter, hv, lookup_mapSet_self]
      · rw [lookup_mapSet_ne names path _ p hp]
        simp [eligiblePaths, List.filter, hv, hp]

theorem NamesOk_append_left (a b : List (Str × FileInfo)) (h : NamesOk (a ++ b)) :
    NamesOk a := fun c hc => h c (List.mem_append_left b hc)

theorem NamesOk_append_right (a b : List (Str × FileInfo)) (h : NamesOk (a ++ b)) :
    NamesOk b := fun c hc => h c (List.mem_append_right a hc)

mutual
/-- The walk of one entry adds exactly the eligible entries of its subtree. -/
theorem walk_spec (unicodeLower : Str → Str) (path : Str) :
    ∀ (e : Entry) (names : List (Str × Str)), NamesOk (subtree path e) →
      ∃ m, walk unicodeLower path e names = some m ∧
        (WellFormed names → WellFormed m) ∧ Extends unicodeLower names (subtree path e) m
  | .file n, names, hok => by
    simp only [walk, subtree]
    exact walkFn_spec unicodeLower path ⟨n, false⟩ names
      (fun h => hok (path, ⟨n, false⟩) (by simp [subtree]) h)
  | .dir n none, names, _ => by
    refine ⟨names, by simp [walk, walkFn, validFile_dir], id, ?_⟩
    intro p
    simp only [subtree, eligiblePaths_cons_dir]
    simp [eligiblePaths]
  | .dir n (some children), names, hok => by
    have hok' : NamesOk (subtreeList path children) := by
      intro c hc
      exact hok c (by simp [subtree, hc])
    obtain ⟨m, hm, hwf, hext⟩ := walkList_spec unicodeLower path children names hok'
    refine ⟨m, by simp [walk, walkFn, validFile_dir, hm], hwf, ?_⟩
    intro p
    simp only [subtree, eligiblePaths_cons_dir]
    exact hext p
/-- The walk of a list of children adds exactly the eligible entries of their
subtrees. -/
theorem walkList_spec (unicodeLower : Str → Str) (path : Str) :
    ∀ (es : List Entry) (names : List (Str × Str)), NamesOk (subtreeList path es) →
      ∃ m, walkList unicodeLower path es names = some m ∧
        (WellFormed names → WellFormed m) ∧
        Extends unicodeLower names (subtreeList path es) m
  | [], names, _ => by
    have h := Extends_refl unicodeLower names
    exact ⟨names, by simp [walkList], id, by simpa [subtreeList] using h⟩
  | e :: es, names, hok => by
    simp only [subtreeList] at hok
    obtain ⟨m1, hm1, hwf1, hext1⟩ := walk_spec unicodeLower (Join path e.name) e names
      (NamesOk_append_left _ _ hok)
    obtain ⟨m2, hm2, hwf2, hext2⟩ := walkList_spec unicodeLower path es m1
      (NamesOk_append_right _ _ hok)
    refine ⟨m2, by simp [walkList, hm1, hm2], fun h => hwf2 (hwf1 h), ?_⟩
    simp only [subtreeList]
    exact Extends_trans unicodeLower names m1 m2 _ _ hext1 hext2
end

/-- The loop of the non-recursive branch adds exactly the eligible children. -/
theorem flatLoop_spec (unicodeLower : Str → Str) (startDir : Str) :
    ∀ (infos : List FileInfo) (names : List (Str × Str)),
      NamesOk (infos.map (fun i => (Join startDir i.name, i))) →
      ∃ m, flatLoop unicodeLower startDir infos names = some m ∧
        (WellFormed names → WellFormed m) ∧
        Extends unicodeLower names (infos.map (fun i => (Join startDir i.name, i))) m
  | [], names, _ => by
    have h := Extends_refl unicodeLower names
    exact ⟨names, by simp [flatLoop], id, by simpa using h⟩
  | info :: infos, names, hok => by
    have hok1 : info.isDir = false → info.name ≠ [] :=
      fun h => hok (Join startDir info.name, info) (by simp) h
    have hok2 : NamesOk (infos.map (fun i => (Join startDir i.name, i))) :=
      fun c hc => hok c (by simp only [List.map_cons]; exact List.mem_cons_of_mem _ hc)
    obtain ⟨m1, hm1, hwf1, hext1⟩ :=
      walkFn_spec unicodeLower (Join startDir info.name) info names hok1
    obtain ⟨m2, hm2, hwf2, hext2⟩ := flatLoop_spec unicodeLower startDir infos m1 hok2
    refine ⟨m2, ?_, fun h => hwf2 (hwf1 h), ?_⟩
    · rw [← hm2]
      simp only [walkFn] at hm1
      simp only [flatLoop]
      split at hm1
      · exact absurd hm1 (by simp)
      · simp only [Option.some.injEq] at hm1
        rw [hm1]
      · simp only [Option.some.injEq] at hm1
        rw [hm1]
    · have := Extends_trans unicodeLower names m1 m2 _ _ hext1 hext2
      simpa using this



/-! ## Well-formedness of every returned map -/

theorem walkFn_wf (unicodeLower : Str → Str) (path : Str) (info : Option FileInfo)
    (names m : List (Str × Str)) (h : walkFn unicodeLower path info names = some m)
    (hwf : WellFormed names) : WellFormed m := by
  simp only [walkFn] at h
  split at h
  · exact absurd h (by simp)
  · simp only [Option.some.injEq] at h
    exact h ▸ hwf
  · simp only [Option.some.injEq] at h
    exact h ▸ WellFormed_mapSet names path hwf

mutual
theorem walk_wf (unicodeLower : Str → Str) :
    ∀ (e : Entry) (path : Str) (names m : List (Str × Str)),
      walk unicodeLower path e names = some m → WellFormed names → WellFormed m
  | .file n, path, names, m, h, hwf => by
    simp only [walk] at h
    exact walkFn_wf unicodeLower path _ names m h hwf
  | .dir n none, path, names, m, h, hwf => by
    simp only [walk, walkFn, validFile_dir, Option.some.injEq] at h
    exact h ▸ hwf
  | .dir n (some children), path, names, m, h, hwf => by
    simp only [walk, walkFn, validFile_dir] at h
    exact walkList_wf unicodeLower children path names m h hwf
theorem walkList_wf (unicodeLower : Str → Str) :
    ∀ (es : List Entry) (path : Str) (names m : List (Str × Str)),
      walkList unicodeLower path es names = some m → WellFormed names → WellFormed m
  | [], path, names, m, h, hwf => by
    simp only [walkList, Option.some.injEq] at h
    exact h ▸ hwf
  | e :: es, path, names, m, h, hwf => by
    simp only [walkList] at h
    split at h
    · exact absurd h (by simp)
    · rename_i m1 hm1
      exact walkList_wf unicodeLower es path m1 m h
        (walk_wf unicodeLower e (Join path e.name) names m1 hm1 hwf)
end

theorem flatLoop_wf (unicodeLower : Str → Str) (startDir : Str) :
    ∀ (infos : List FileInfo) (names m : List (Str × Str)),
      flatLoop unicodeLower startDir infos names = some m → WellFormed names → WellFormed m
  | [], names, m, h, hwf => by
    simp only [flatLoop, Option.some.injEq] at h
    exact h ▸ hwf
  | info :: infos, names, m, h, hwf => by
    simp only [flatLoop] at h
    split at h
    · exact absurd h (by simp)
    · exact flatLoop_wf unicodeLower startDir infos names m h hwf
    · exact flatLoop_wf unicodeLower startDir infos _ m h
        (WellFormed_mapSet names _ hwf)

theorem ioNames_wf (unicodeLower : Str → Str) (fs : Option Entry) (startDir : Str)
    (recursive : Bool) (m : List (Str × Str))
    (h : ioNames unicodeLower fs startDir recursive = some m) : WellFormed m := by
  cases recursive with
  | true =>
    simp only [ioNames, if_true, Walk] at h
    cases fs with
    | none => exact walkFn_wf unicodeLower startDir none [] m h WellFormed_nil
    | some e => exact walk_wf unicodeLower e startDir [] m h WellFormed_nil
  | false =>
    simp only [ioNames, Bool.false_eq_true, if_false] at h
    split at h
    · simp only [Option.some.injEq] at h
      exact h ▸ WellFormed_nil
    · exact flatLoop_wf unicodeLower startDir _ [] m h WellFormed_nil

theorem minExt_ne_self (p : Str) : minExt p ≠ p := by
  intro h
  have := minExt_length p
  rw [h] at this
  omega

/-! ## Lower-casing against case-insensitive equality -/

theorem lowerByte_eq_iff (x k : Nat) (hk : ¬(65 ≤ k ∧ k ≤ 90)) :
    lowerByte x = k ↔ matchesFoldByte x k = true := by
  unfold lowerByte matchesFoldByte
  simp only [Bool.or_eq_true, beq_iff_eq, Bool.and_eq_true, decide_eq_true_eq]
  by_cases hx : 65 ≤ x ∧ x ≤ 90
  · simp only [hx, and_self, if_true]
    omega
  · simp only [hx, if_false]
    omega

theorem map_lowerByte_eq_iff : ∀ (s key : Str), (∀ k ∈ key, ¬(65 ≤ k ∧ k ≤ 90)) →
    (s.map lowerByte = key ↔ matchesFold s key = true)
  | [], [], _ => by simp [matchesFold]
  | [], _ :: _, _ => by simp [matchesFold]
  | _ :: _, [], _ => by simp [matchesFold]
  | x :: xs, k :: ks, h => by
    simp only [List.map_cons, List.cons.injEq, matchesFold, Bool.and_eq_true]
    rw [lowerByte_eq_iff x k (h k (by simp)),
      map_lowerByte_eq_iff xs ks (fun k1 hk1 => h k1 (List.mem_cons_of_mem _ hk1))]

theorem tableKeys_lower : ∀ key ∈ tableKeys, ∀ k ∈ key, ¬(65 ≤ k ∧ k ≤ 90) := by
  decide

theorem extMime_tableKeys : extMime.map Prod.fst = tableKeys := by
  decide

/-- The lower-cased text of an extension is a key exactly when the extension
equals a key up to case (ASCII), or its Unicode lower-casing is a key. -/
theorem lowered_in_table (unicodeLower : Str → Str) (e : Str) :
    ToLower unicodeLower (dotByte :: e) ∈ tableKeys ↔
      if ∀ c ∈ e, c < 128 then ∃ key ∈ tableKeys, matchesFold (dotByte :: e) key = true
      else unicodeLower (dotByte :: e) ∈ tableKeys := by
  by_cases h : ∀ c ∈ e, c < 128
  · have hall : (dotByte :: e).all (fun c => decide (c < 128)) = true := by
      simp only [List.all_cons, List.all_eq_true, decide_eq_true_eq, Bool.and_eq_true]
      exact ⟨by decide, h⟩
    rw [if_pos h]
    simp only [ToLower, hall, if_true]
    constructor
    · intro hm
      exact ⟨_, hm, (map_lowerByte_eq_iff _ _ (tableKeys_lower _ hm)).mp rfl⟩
    · rintro ⟨key, hk, hf⟩
      rw [(map_lowerByte_eq_iff _ key (tableKeys_lower key hk)).mpr hf]
      exact hk
  · have hall : (dotByte :: e).all (fun c => decide (c < 128)) = false := by
      rw [← Bool.not_eq_true]
      intro hc
      apply h
      simp only [List.all_cons, List.all_eq_true, decide_eq_true_eq, Bool.and_eq_true] at hc
      exact hc.2
    rw [if_neg h]
    simp [ToLower, hall]

/-- The table lookup of the lower-cased extension of a name, in the words of
the specification. -/
theorem lowered_ext_in_table (unicodeLower : Str → Str) (name : Str) :
    mapHas extMime (ToLower unicodeLower (Ext name)) = true ↔
      ∃ stem e, name = stem ++ dotByte :: e ∧ dotByte ∉ e ∧ sepByte ∉ e ∧
        if ∀ c ∈ e, c < 128 then ∃ key ∈ tableKeys, matchesFold (dotByte :: e) key = true
        else unicodeLower (dotByte :: e) ∈ tableKeys := by
  rw [mapHas_iff, extMime_tableKeys]
  constructor
  · intro hm
    have hext : Ext name ≠ [] := by
      intro he
      rw [he, ToLower_nil] at hm
      revert hm
      decide
    obtain ⟨u, v, hn, hvd, hvs, hE⟩ := Ext_ne_nil name hext
    rw [hE] at hm
    exact ⟨u, v, hn, hvd, hvs, (lowered_in_table unicodeLower v).mp hm⟩
  · rintro ⟨stem, e, hn, hd, hs, hkey⟩
    rw [hn, Ext_split stem e hd hs]
    exact (lowered_in_table unicodeLower e).mpr hkey

/-- A name with an extension keeps it behind any directory part. -/
theorem Ext_append (d name : Str) (h : Ext name ≠ []) : Ext (d ++ name) = Ext name := by
  obtain ⟨u, v, hn, hvd, hvs, hE⟩ := Ext_ne_nil name h
  rw [hE, hn, ← List.append_assoc]
  exact Ext_split (d ++ u) v hvd hvs

/-- A name that the filter accepts has an extension. -/
theorem validFile_true_has_ext (unicodeLower : Str → Str) (info : FileInfo)
    (h : validFile unicodeLower (some info) = some true) : Ext info.name ≠ [] := by
  obtain ⟨_, _, _, hhas⟩ := validFile_true_ext unicodeLower info h
  intro he
  rw [he, ToLower_nil] at hhas
  revert hhas
  decide

/-! ## The claims -/

/-- C1: `minExt` equals the Output Namer of the specification on every path:
without a `.` the path gets `.min` appended, and a path cut at its last `.`
into `stem` and `ext` becomes `stem ++ ".min." ++ ext`. -/
theorem minExt_is_output_namer (p : Str) :
    minExt p = deriveOutputPath p ∧
    (dotByte ∉ p → minExt p = p ++ ascii ".min") ∧
    (∀ stem ext, p = stem ++ dotByte :: ext → dotByte ∉ ext →
      minExt p = stem ++ ascii ".min." ++ ext) := by
  refine ⟨minExt_eq_deriveOutputPath p, minExt_no_dot p, ?_⟩
  intro stem ext hp hext
  rw [hp, minExt_split stem ext hext, ascii_dotMin, ascii_dotMinDot]
  simp

/-- C2: for an entry with a non-empty name `validFile` returns a Boolean, and
it returns `true` exactly when the entry is no directory, its name does not
begin with `.`, its name does not contain `.min.`, and the extension of its
name (the text from its last dot on, with no separator after that dot),
lower-cased, is one of the six keys of the extension table: for an ASCII
extension this is equality with a key up to the case of letters, otherwise the
lower-casing is that of `unicode.ToLower`. -/
theorem validFile_iff_four_checks (unicodeLower : Str → Str) (info : FileInfo)
    (hname : info.name ≠ []) :
    ∃ b, validFile unicodeLower (some info) = some b ∧
      (b = true ↔
        info.isDir = false ∧ info.name.head? ≠ some dotByte ∧
        (¬ ∃ a c, info.name = a ++ ascii ".min." ++ c) ∧
        ∃ stem e, info.name = stem ++ dotByte :: e ∧ dotByte ∉ e ∧ sepByte ∉ e ∧
          if ∀ c ∈ e, c < 128 then
            ∃ key ∈ [ascii ".css", ascii ".html", ascii ".js", ascii ".json", ascii ".svg",
              ascii ".xml"], matchesFold (dotByte :: e) key = true
          else
            unicodeLower (dotByte :: e) ∈ [ascii ".css", ascii ".html", ascii ".js",
              ascii ".json", ascii ".svg", ascii ".xml"]) := by
  refine ⟨_, validFile_eq unicodeLower info hname, ?_⟩
  have h4 := lowered_ext_in_table unicodeLower info.name
  simp only [tableKeys] at h4
  rw [← h4, ← Contains_iff]
  simp only [Bool.and_eq_true, Bool.not_eq_true', beq_eq_false_iff_ne, ne_eq,
    Bool.not_eq_true]
  constructor
  · rintro ⟨⟨⟨h1, h2⟩, h3⟩, h4⟩
    exact ⟨h1, h2, h3, h4⟩
  · rintro ⟨h1, h2, h3, h4⟩
    exact ⟨⟨⟨h1, h2⟩, h3⟩, h4⟩

/-- Witness for C2: the entry `A.CSS`, a file with a non-empty name, which the
filter accepts. -/
theorem validFile_iff_four_checks_witness :
    (FileInfo.mk (ascii "A.CSS") false).name ≠ [] ∧
    validFile id (some (FileInfo.mk (ascii "A.CSS") false)) = some true ∧
    validFile id (some (FileInfo.mk (ascii "a.css") false)) = some true ∧
    validFile id (some (FileInfo.mk (ascii "A.TXT") false)) = some false := by
  refine ⟨by decide, ?_, ?_, ?_⟩
  · obtain ⟨b, hb, hiff⟩ :=
      validFile_iff_four_checks id (FileInfo.mk (ascii "A.CSS") false) (by decide)
    have hacc : b = true :=
      hiff.mpr ⟨rfl, by decide, (Contains_iff _ _).not.mp (by decide),
        ascii "A", ascii "CSS", by decide, by decide, by decide, by decide⟩
    rw [hb, hacc]
  · obtain ⟨b, hb, hiff⟩ :=
      validFile_iff_four_checks id (FileInfo.mk (ascii "a.css") false) (by decide)
    have hacc : b = true :=
      hiff.mpr ⟨rfl, by decide, (Contains_iff _ _).not.mp (by decide),
        ascii "a", ascii "css", by decide, by decide, by decide, by decide⟩
    rw [hb, hacc]
  · obtain ⟨b, hb, hiff⟩ :=
      validFile_iff_four_checks id (FileInfo.mk (ascii "A.TXT") false) (by decide)
    have hrej : b = false := by
      cases b with
      | false => rfl
      | true =>
        exfalso
        obtain ⟨_, _, _, stem, e, hse, hd, _, hkey⟩ := hiff.mp rfl
        have hsplit : ascii "A.TXT" = ascii "A" ++ dotByte :: ascii "TXT" := by decide
        obtain ⟨_, he⟩ := last_split_unique stem e (ascii "A") (ascii "TXT") dotByte hd
          (by decide) (hse.symm.trans hsplit)
        subst he
        revert hkey
        decide
    rw [hb, hrej]

/-- C3: for a readable directory whose entries have non-empty names,
`ioNames` returns a map without repeated keys that sends exactly the eligible
candidate paths to their `minExt` images, the candidates being the immediate
children when `recursive` is false and the whole subtree when it is true. For
the directory holding `a.css`, `b.min.css`, `.hidden.js` and `sub/c.js` the
non-recursive result has the one key `dir/a.css` and the recursive result the
keys `dir/a.css` and `dir/sub/c.js`. -/
theorem ioNames_enumerates :
    (∀ (unicodeLower : Str → Str) (name : Str) (children : List Entry) (startDir : Str)
        (recursive : Bool), NamesOk (candidates name children startDir recursive) →
      ∃ m, ioNames unicodeLower (some (.dir name (some children))) startDir recursive = some m ∧
        WellFormed m ∧
        ∀ p, m.lookup p =
          if p ∈ eligiblePaths unicodeLower (candidates name children startDir recursive)
          then some (minExt p) else none) ∧
    (∀ unicodeLower : Str → Str, ioNames unicodeLower (some exampleDir) (ascii "dir") false =
      some [(ascii "dir/a.css", ascii "dir/a.min.css")]) ∧
    (∀ unicodeLower : Str → Str, ioNames unicodeLower (some exampleDir) (ascii "dir") true =
      some [(ascii "dir/a.css", ascii "dir/a.min.css"),
        (ascii "dir/sub/c.js", ascii "dir/sub/c.min.js")]) := by
  refine ⟨?_, fun _ => rfl, fun _ => rfl⟩
  intro unicodeLower name children startDir recursive hok
  cases recursive with
  | true =>
    simp only [candidates, if_true] at hok ⊢
    obtain ⟨m, hm, hwf, hext⟩ :=
      walk_spec unicodeLower startDir (.dir name (some children)) [] hok
    refine ⟨m, by simpa [ioNames, Walk] using hm, hwf WellFormed_nil, ?_⟩
    intro p
    rw [hext p]
    simp
  | false =>
    simp only [candidates, Bool.false_eq_true, if_false] at hok ⊢
    have hmap : (children.map Entry.info).map (fun i => (Join startDir i.name, i)) =
        children.map (fun e => (Join startDir e.name, e.info)) := by
      rw [List.map_map]
      apply List.map_congr_left
      intro e _
      cases e <;> rfl
    obtain ⟨m, hm, hwf, hext⟩ :=
      flatLoop_spec unicodeLower startDir (children.map Entry.info) [] (by rw [hmap]; exact hok)
    refine ⟨m, by simpa [ioNames, ReadDir] using hm, hwf WellFormed_nil, ?_⟩
    intro p
    rw [hext p, hmap]
    simp

/-- Witness for C3: the general statement at the example directory, walked
recursively. -/
theorem ioNames_enumerates_witness :
    NamesOk (candidates (ascii "dir") [.file (ascii "a.css"), .file (ascii "b.min.css"),
      .file (ascii ".hidden.js"), .dir (ascii "sub") (some [.file (ascii "c.js")])]
      (ascii "dir") true) ∧
    ∃ m, ioNames id (some (.dir (ascii "dir") (some [.file (ascii "a.css"),
        .file (ascii "b.min.css"), .file (ascii ".hidden.js"),
        .dir (ascii "sub") (some [.file (ascii "c.js")])]))) (ascii "dir") true = some m ∧
      WellFormed m ∧
      ∀ p, m.lookup p =
        if p ∈ eligiblePaths id (candidates (ascii "dir") [.file (ascii "a.css"),
          .file (ascii "b.min.css"), .file (ascii ".hidden.js"),
          .dir (ascii "sub") (some [.file (ascii "c.js")])] (ascii "dir") true)
        then some (minExt p) else none :=
  have hok : NamesOk (candidates (ascii "dir") [.file (ascii "a.css"),
      .file (ascii "b.min.css"), .file (ascii ".hidden.js"),
      .dir (ascii "sub") (some [.file (ascii "c.js")])] (ascii "dir") true) := by
    unfold NamesOk
    decide
  ⟨hok, ioNames_enumerates.1 id _ _ _ _ hok⟩



/-- C4, counterexample: the path `README` has no extension; the file name of
its `minExt` image is `README.min`, which does not contain `.min.`. -/
theorem minExt_marker_counterexample :
    basename (minExt (ascii "README")) = ascii "README.min" ∧
    Contains (basename (minExt (ascii "README"))) (ascii ".min.") = false := by
  decide

/-- C4, amended: for every path `p` the filter returns `false` on the file
name of `minExt p`, be the entry a directory or not, so the enumerator never
takes up an output of its own; and that file name contains the marker `.min.`
whenever `p` has an extension, in particular whenever `p` ends in a file name
that the filter accepts. -/
theorem minExt_output_rejected (unicodeLower : Str → Str) (p : Str) (isDir : Bool) :
    validFile unicodeLower (some ⟨basename (minExt p), isDir⟩) = some false ∧
    (Ext p ≠ [] → Contains (basename (minExt p)) (ascii ".min.") = true) ∧
    (∀ (d : Str) (info : FileInfo), p = d ++ info.name →
      validFile unicodeLower (some info) = some true →
      Contains (basename (minExt p)) (ascii ".min.") = true) := by
  refine ⟨?_, basename_minExt_contains p, ?_⟩
  · have hne := validFile_minExt_ne_true unicodeLower p isDir
    have heq := validFile_eq unicodeLower ⟨basename (minExt p), isDir⟩
      (basename_minExt_ne_nil p)
    rw [heq] at hne ⊢
    generalize (!(FileInfo.mk (basename (minExt p)) isDir).isDir &&
      !((FileInfo.mk (basename (minExt p)) isDir).name.head? == some dotByte) &&
      !Contains (FileInfo.mk (basename (minExt p)) isDir).name (ascii ".min.") &&
      mapHas extMime
        (ToLower unicodeLower (Ext (FileInfo.mk (basename (minExt p)) isDir).name)))
      = b at hne ⊢
    cases b with
    | false => rfl
    | true => exact absurd rfl hne
  · intro d info hp hv
    apply basename_minExt_contains p
    rw [hp, Ext_append d info.name (validFile_true_has_ext unicodeLower info hv)]
    exact validFile_true_has_ext unicodeLower info hv

/-- Witness for C4: the path `dir/a.css`, which has an extension and ends in
the accepted name `a.css`. -/
theorem minExt_output_rejected_witness :
    Ext (ascii "dir/a.css") ≠ [] ∧
    ascii "dir/a.css" = ascii "dir/" ++ (FileInfo.mk (ascii "a.css") false).name ∧
    validFile id (some (FileInfo.mk (ascii "a.css") false)) = some true ∧
    validFile id (some ⟨basename (minExt (ascii "dir/a.css")), false⟩) = some false ∧
    Contains (basename (minExt (ascii "dir/a.css"))) (ascii ".min.") = true :=
  have h := minExt_output_rejected id (ascii "dir/a.css") false
  ⟨by decide, by decide, by decide, h.1,
    h.2.2 (ascii "dir/") (FileInfo.mk (ascii "a.css") false) (by decide) (by decide)⟩

/-- C5, the code at the failing input: in the directory holding `a.css` and
`b.js`, run without `-x`, the second job is handed the media type of the
first, in either order of the two jobs, although the table gives
`application/javascript` for `.js` and `text/css` for `.css`. -/
theorem batch_keeps_first_extension :
    (main id copyTransform id ⟨[], [], [], ascii "dir", false⟩ (some twoFileDir)
        twoFileWorld).calls =
      [⟨ascii "dir/a.css", ascii "text/css", some .css⟩,
        ⟨ascii "dir/b.js", ascii "text/css", some .css⟩] ∧
    (main id copyTransform List.reverse ⟨[], [], [], ascii "dir", false⟩ (some twoFileDir)
        twoFileWorld).calls =
      [⟨ascii "dir/b.js", ascii "application/javascript", some .js⟩,
        ⟨ascii "dir/a.css", ascii "application/javascript", some .js⟩] ∧
    mapIndex extMime (Ext (ascii "dir/b.js")) = ascii "application/javascript" ∧
    mapIndex extMime (Ext (ascii "dir/a.css")) = ascii "text/css" := by
  decide

/-- C6, the code at the failing input: each of the six tokens that the help
text of `-x` lists is absent from the extension table, whose keys begin with a
dot; run with `-x css` on `style.css`, `m.Minify` is handed the empty media
type, for which nothing is registered. -/
theorem ext_flag_token_gives_no_type (unicodeLower : Str → Str)
    (transform : Minifier → List Nat → TransformResult) :
    (∀ tok ∈ [ascii "css", ascii "html", ascii "js", ascii "json", ascii "svg", ascii "xml"],
      mapIndex extMime tok = []) ∧
    (main unicodeLower transform id ⟨ascii "style.css", [], ascii "css", [], false⟩ none
        (oneFileWorld (ascii "style.css") (ascii "a { color: red }"))).calls =
      [⟨ascii "style.css", [], none⟩] :=
  ⟨by decide, rfl⟩

/-- C7, the code at the failing input: `validFile` accepts the name `A.CSS`,
but a run on `A.CSS` without `-x` hands `m.Minify` the empty media type: the
extension `.CSS` is looked up as it is written. -/
theorem upper_case_extension_unclassified (unicodeLower : Str → Str)
    (transform : Minifier → List Nat → TransformResult) :
    validFile unicodeLower (some ⟨ascii "A.CSS", false⟩) = some true ∧
    mapIndex extMime (ToLower unicodeLower (Ext (ascii "A.CSS"))) = ascii "text/css" ∧
    (main unicodeLower transform id ⟨ascii "A.CSS", [], [], [], false⟩ none
        (oneFileWorld (ascii "A.CSS") (ascii "a { color: red }"))).calls =
      [⟨ascii "A.CSS", [], none⟩] :=
  ⟨rfl, rfl, rfl⟩

/-- C8, the code at the failing input: when nothing exists at the root,
the non-recursive enumeration returns the empty map but the recursive one
panics, the callback being handed a nil file info; a root directory that
exists and cannot be listed gives the empty map in both modes. -/
theorem ioNames_unreadable_root (unicodeLower : Str → Str) (startDir name : Str) :
    ioNames unicodeLower none startDir false = some [] ∧
    ioNames unicodeLower none startDir true = none ∧
    ioNames unicodeLower (some (.dir name none)) startDir false = some [] ∧
    ioNames unicodeLower (some (.dir name none)) startDir true = some [] := by
  refine ⟨rfl, rfl, rfl, ?_⟩
  simp [ioNames, Walk, walk, walkFn, validFile_dir]

/-- C10: `minExt` is injective, never returns its argument, and lengthens it
by four bytes; hence in every map that `ioNames` returns distinct keys have
distinct output paths and no key is its own output path. -/
theorem minExt_injective_no_fixpoint :
    (∀ p q : Str, minExt p = minExt q → p = q) ∧
    (∀ p : Str, minExt p ≠ p ∧ (minExt p).length = p.length + 4) ∧
    (∀ (unicodeLower : Str → Str) (fs : Option Entry) (startDir : Str) (recursive : Bool)
        (m : List (Str × Str)), ioNames unicodeLower fs startDir recursive = some m →
      (∀ e1 ∈ m, ∀ e2 ∈ m, e1.2 = e2.2 → e1.1 = e2.1) ∧ ∀ e ∈ m, e.1 ≠ e.2) := by
  refine ⟨minExt_inj, fun p => ⟨minExt_ne_self p, minExt_length p⟩, ?_⟩
  intro unicodeLower fs startDir recursive m hm
  have hwf := ioNames_wf unicodeLower fs startDir recursive m hm
  constructor
  · intro e1 h1 e2 h2 h
    rw [hwf.2 e1 h1, hwf.2 e2 h2] at h
    exact minExt_inj _ _ h
  · intro e he h
    have h2 := hwf.2 e he
    rw [← h] at h2
    exact minExt_ne_self e.1 h2.symm

/-- Witness for C10: the map returned for the example directory. -/
theorem minExt_injective_no_fixpoint_witness :
    ioNames id (some exampleDir) (ascii "dir") true =
      some [(ascii "dir/a.css", ascii "dir/a.min.css"),
        (ascii "dir/sub/c.js", ascii "dir/sub/c.min.js")] ∧
    ((∀ e1 ∈ [(ascii "dir/a.css", ascii "dir/a.min.css"),
        (ascii "dir/sub/c.js", ascii "dir/sub/c.min.js")],
      ∀ e2 ∈ [(ascii "dir/a.css", ascii "dir/a.min.css"),
        (ascii "dir/sub/c.js", ascii "dir/sub/c.min.js")], e1.2 = e2.2 → e1.1 = e2.1) ∧
      ∀ e ∈ [(ascii "dir/a.css", ascii "dir/a.min.css"),
        (ascii "dir/sub/c.js", ascii "dir/sub/c.min.js")], e.1 ≠ e.2) :=
  ⟨rfl, minExt_injective_no_fixpoint.2.2 id (some exampleDir) (ascii "dir") true _ rfl⟩



/-! ## The fallback copy -/

theorem registry_resolve_nil : registry.resolve [] = none := by decide

theorem mapIndex_of_not_has (m : List (Str × Str)) (k : Str) (h : mapHas m k = false) :
    mapIndex m k = [] := by
  unfold mapHas at h
  unfold mapIndex
  cases hl : m.lookup k with
  | none => rfl
  | some v => simp [hl] at h

theorem mapIndex_of_lookup (m : List (Str × Str)) (k v : Str) (h : m.lookup k = some v) :
    mapIndex m k = v := by
  simp [mapIndex, h]

theorem setMediatype_unknown (s : LoopState) (hm : s.mediatype = [])
    (hext : mapIndex extMime s.ext = []) : setMediatype s = s := by
  obtain ⟨ext, mediatype, r, w, world, calls⟩ := s
  simp only at hm hext
  subst hm
  by_cases he : ext = []
  · simp [setMediatype, he]
  · simp [setMediatype, he, hext]

/-- With the empty media type the input is copied to the output. -/
theorem transformOrCopy_unknown (transform : Minifier → List Nat → TransformResult)
    (s : LoopState) (input : Str) (hm : s.mediatype = []) :
    transformOrCopy transform s input =
      .ok { s with calls := s.calls ++ [⟨input, [], none⟩],
                   r := (readAll s.world s.r).2.1,
                   world := writeAll (readAll s.world s.r).2.2 (readAll s.world s.r).1 s.w } := by
  simp [transformOrCopy, hm, registry_resolve_nil]

theorem mapIndex_mapSet_self (m : List (Str × Str)) (k v : Str) :
    mapIndex (mapSet m k v) k = v := by
  simp [mapIndex, lookup_mapSet_self]

theorem mapIndex_mapSet_ne (m : List (Str × Str)) (k v p : Str) (hp : p ≠ k) :
    mapIndex (mapSet m k v) p = mapIndex m p := by
  simp [mapIndex, lookup_mapSet_ne m k v p hp]

/-- Opening the input of the single job from the initial state. -/
theorem acquireInput_initial (fl : Flags) (world : World) (content : List Nat)
    (hx : fl.ext = [])
    (hin : fl.input ≠ [] → world.files.lookup (world.resolve fl.input) = some content) :
    ∃ s1, acquireInput (initState fl world) fl.input fl.output = .ok s1 ∧
      s1.mediatype = [] ∧ s1.calls = [] ∧ s1.w = .stdout ∧ s1.world = world ∧
      (s1.ext = [] ∨ s1.ext = Ext fl.input) ∧
      s1.r = (if fl.input = [] then Reader.stdin
        else if fl.input = fl.output then Reader.buffer content
        else Reader.file (world.resolve fl.input) 0) := by
  obtain ⟨input, output, ext, directory, recursive⟩ := fl
  simp only at hx hin ⊢
  subst hx
  by_cases hi : input = []
  · subst hi
    exact ⟨initState ⟨[], output, [], directory, recursive⟩ world, by simp [acquireInput],
      rfl, rfl, rfl, rfl, Or.inl rfl, by simp [initState]⟩
  · have hin := hin hi
    have hcontent : mapIndex world.files (world.resolve input) = content :=
      mapIndex_of_lookup _ _ _ hin
    by_cases hio : input = output
    · subst hio
      refine ⟨⟨Ext input, [], .buffer content, .stdout, world, []⟩, ?_, rfl,
        rfl, rfl, rfl, Or.inr rfl, by simp [hi]⟩
      simp [acquireInput, hi, initState, hin, readAll, hcontent]
    · refine ⟨⟨Ext input, [], .file (world.resolve input) 0, .stdout, world, []⟩, ?_, rfl,
        rfl, rfl, rfl, Or.inr rfl, by simp [hi, hio]⟩
      simp [acquireInput, hi, initState, hin, hio]

/-- Creating the output of a job. -/
theorem acquireOutput_ok (s1 : LoopState) (output : Str) (hout : output ∉ s1.world.denied) :
    ∃ s2, acquireOutput s1 output = .ok s2 ∧ s2.ext = s1.ext ∧
      s2.mediatype = s1.mediatype ∧ s2.r = s1.r ∧ s2.calls = s1.calls ∧
      s2.w = (if output = [] then s1.w else Writer.file (s1.world.resolve output)) ∧
      s2.world = (if output = [] then s1.world else
        { s1.world with files := mapSet s1.world.files (s1.world.resolve output) [] }) := by
  by_cases ho : output = []
  · exact ⟨s1, by simp [acquireOutput, ho], rfl, rfl, rfl, rfl, by simp [ho], by simp [ho]⟩
  · refine ⟨⟨s1.ext, s1.mediatype, s1.r, Writer.file (s1.world.resolve output),
        { s1.world with files := mapSet s1.world.files (s1.world.resolve output) [] },
        s1.calls⟩, ?_, rfl, rfl, rfl, rfl, by simp [ho], by simp [ho]⟩
    simp [acquireOutput, ho, hout]

/-- The loop body on a job whose extension is outside the table, run from the
initial state without `-x`, when the output is not the file that the input is
read from under another path. -/
theorem loopBody_copies (transform : Minifier → List Nat → TransformResult) (fl : Flags)
    (world : World) (content : List Nat) (hx : fl.ext = [])
    (hext : mapHas extMime (Ext fl.input) = false)
    (hin : if fl.input = [] then (readAll world Reader.stdin).1 = content
      else world.files.lookup (world.resolve fl.input) = some content)
    (hout : fl.output ∉ world.denied)
    (hfile : fl.input ≠ [] → fl.output ≠ [] → fl.input ≠ fl.output →
      world.resolve fl.input ≠ world.resolve fl.output)
    (hstdin : fl.input = [] → fl.output ≠ [] → ∀ key pos,
      world.stdin = Stdin.file key pos → key ≠ world.resolve fl.output) :
    ∃ s, loopBody transform (initState fl world) (fl.input, fl.output) = .ok s ∧
      s.calls = [⟨fl.input, [], none⟩] ∧
      (if fl.output = [] then s.world.stdout = world.stdout ++ content
        else s.world.files.lookup (world.resolve fl.output) = some content) := by
  have hmi : mapIndex extMime (Ext fl.input) = [] := mapIndex_of_not_has _ _ hext
  obtain ⟨s1, h1, hm1, hc1, hw1, hworld1, he1, hr1⟩ :=
    acquireInput_initial fl world content hx (fun hi => by simpa [hi] using hin)
  obtain ⟨s2, h2, he2, hm2, hr2, hc2, hw2, hworld2⟩ :=
    acquireOutput_ok s1 fl.output (by rw [hworld1]; exact hout)
  rw [hworld1] at hw2 hworld2
  rw [hw1] at hw2
  have hmi2 : mapIndex extMime s2.ext = [] := by
    rw [he2]
    rcases he1 with h | h
    · rw [h]
      decide
    · rw [h]
      exact hmi
  have hset : setMediatype s2 = s2 := setMediatype_unknown s2 (hm2.trans hm1) hmi2
  refine ⟨{ s2 with calls := s2.calls ++ [⟨fl.input, [], none⟩],
                    r := (readAll s2.world s2.r).2.1,
                    world := writeAll (readAll s2.world s2.r).2.2 (readAll s2.world s2.r).1 s2.w },
    ?_, ?_, ?_⟩
  · simp only [loopBody, h1, h2, hset]
    exact transformOrCopy_unknown transform s2 fl.input (hm2.trans hm1)
  · simp [hc2, hc1]
  · simp only
    by_cases hi : fl.input = []
    · have hr : s2.r = Reader.stdin := by rw [hr2, hr1, if_pos hi]
      simp only [hi, if_true] at hin
      rw [hr]
      by_cases ho : fl.output = []
      · simp only [ho, if_true] at hw2 hworld2 ⊢
        rw [hw2, hworld2]
        cases hs : world.stdin with
        | stream data =>
          simp only [readAll, hs] at hin ⊢
          simp [writeAll, hin]
        | file key pos =>
          simp only [readAll, hs] at hin ⊢
          simp [writeAll, hin]
      · simp only [ho, if_false] at hw2 hworld2 ⊢
        rw [hw2, hworld2]
        cases hs : world.stdin with
        | stream data =>
          simp only [readAll, hs] at hin ⊢
          simp [writeAll, hin, mapIndex_mapSet_self, lookup_mapSet_self]
        | file key pos =>
          have hk : key ≠ world.resolve fl.output := hstdin hi ho key pos hs
          simp only [readAll, hs] at hin ⊢
          simp [writeAll, hin, mapIndex_mapSet_self, lookup_mapSet_self,
            mapIndex_mapSet_ne _ _ _ _ hk]
    · simp only [hi, if_false] at hin
      have hcontent : mapIndex world.files (world.resolve fl.input) = content :=
        mapIndex_of_lookup _ _ _ hin
      by_cases ho : fl.output = []
      · have hio : fl.input ≠ fl.output := fun h => hi (h.trans ho)
        have hr : s2.r = Reader.file (world.resolve fl.input) 0 := by
          rw [hr2, hr1, if_neg hi, if_neg hio]
        rw [hr]
        simp only [ho, if_true] at hw2 hworld2 ⊢
        rw [hw2, hworld2]
        simp [readAll, writeAll, hcontent]
      · simp only [ho, if_false] at hw2 hworld2 ⊢
        rw [hw2, hworld2]
        by_cases hio : fl.input = fl.output
        · have hr : s2.r = Reader.buffer content := by rw [hr2, hr1, if_neg hi, if_pos hio]
          rw [hr]
          simp [readAll, writeAll, mapIndex_mapSet_self, lookup_mapSet_self]
        · have hr : s2.r = Reader.file (world.resolve fl.input) 0 := by
            rw [hr2, hr1, if_neg hi, if_neg hio]
          have hk : world.resolve fl.input ≠ world.resolve fl.output := hfile hi ho hio
          rw [hr]
          simp [readAll, writeAll, mapIndex_mapSet_self, lookup_mapSet_self,
            mapIndex_mapSet_ne _ _ _ _ hk, hcontent]

/-- C9, counterexample: the single job with input `notes.txt` and output
`./notes.txt`, two paths of one file, and the job that reads standard input
redirected from `out.txt` and writes `out.txt`. The paths differ as strings,
so nothing is buffered; `os.Create` empties the file before it is read; the
run ends without an error and the file, which held `hello`, is empty. -/
theorem unknown_type_alias_counterexample :
    mapHas extMime (Ext (ascii "notes.txt")) = false ∧
    (oneFileWorld (ascii "notes.txt") (ascii "hello")).files.lookup
      ((oneFileWorld (ascii "notes.txt") (ascii "hello")).resolve (ascii "notes.txt")) =
        some (ascii "hello") ∧
    (main id copyTransform id ⟨ascii "notes.txt", ascii "./notes.txt", [], [], false⟩ none
        (oneFileWorld (ascii "notes.txt") (ascii "hello"))).calls =
      [⟨ascii "notes.txt", [], none⟩] ∧
    (main id copyTransform id ⟨ascii "notes.txt", ascii "./notes.txt", [], [], false⟩ none
        (oneFileWorld (ascii "notes.txt") (ascii "hello"))).files.lookup
      ((oneFileWorld (ascii "notes.txt") (ascii "hello")).resolve (ascii "./notes.txt")) =
        some [] ∧
    (readAll (redirectedWorld (ascii "hello")) Reader.stdin).1 = ascii "hello" ∧
    (main id copyTransform id ⟨[], ascii "out.txt", [], [], false⟩ none
        (redirectedWorld (ascii "hello"))).calls = [⟨[], [], none⟩] ∧
    (main id copyTransform id ⟨[], ascii "out.txt", [], [], false⟩ none
        (redirectedWorld (ascii "hello"))).files.lookup
      ((redirectedWorld (ascii "hello")).resolve (ascii "out.txt")) = some [] := by
  decide

/-- C9, amended: a single job without `-x` whose input path has no extension
of the table, whose input can be opened (or is standard input), whose output
can be created, and whose output path is the same string as the input path or
names another file than the one the input is read from: the empty media type
matches none of the registered matchers, the run ends without an error after
one call of `m.Minify` with the empty media type, and the output (the file
`-o`, or standard output) holds the input bytes. -/
theorem unknown_type_is_copied (unicodeLower : Str → Str)
    (transform : Minifier → List Nat → TransformResult)
    (order : List (Str × Str) → List (Str × Str)) (fl : Flags) (fs : Option Entry)
    (world : World) (content : List Nat)
    (horder : ∀ l, (order l).Perm l)
    (hdir : fl.directory = []) (hx : fl.ext = [])
    (hext : mapHas extMime (Ext fl.input) = false)
    (hin : if fl.input = [] then (readAll world Reader.stdin).1 = content
      else world.files.lookup (world.resolve fl.input) = some content)
    (hout : fl.output ∉ world.denied)
    (hfile : fl.input ≠ [] → fl.output ≠ [] → fl.input ≠ fl.output →
      world.resolve fl.input ≠ world.resolve fl.output)
    (hstdin : fl.input = [] → fl.output ≠ [] → ∀ key pos,
      world.stdin = Stdin.file key pos → key ≠ world.resolve fl.output) :
    registry.literal.map Prod.fst = [ascii "text/css", ascii "text/html",
      ascii "application/javascript", ascii "image/svg+xml"] ∧
    (∀ mt, registry.pattern.map (fun e => e.1 mt) =
      [familyPattern (ascii "json") mt, familyPattern (ascii "xml") mt]) ∧
    (∀ e ∈ registry.literal, e.1 ≠ []) ∧ (∀ e ∈ registry.pattern, e.1 [] = false) ∧
    registry.resolve [] = none ∧
    ∃ s, main unicodeLower transform order fl fs world = .done s ∧
      s.calls = [⟨fl.input, [], none⟩] ∧
      (if fl.output = [] then s.world.stdout = world.stdout ++ content
        else s.world.files.lookup (world.resolve fl.output) = some content) := by
  refine ⟨by decide, fun _ => rfl, by decide, by decide, registry_resolve_nil, ?_⟩
  obtain ⟨s, hs, hcalls, hres⟩ :=
    loopBody_copies transform fl world content hx hext hin hout hfile hstdin
  have hord : order [(fl.input, fl.output)] = [(fl.input, fl.output)] :=
    List.perm_singleton.mp (horder _)
  refine ⟨s, ?_, hcalls, hres⟩
  simp [main, filenames, hdir, hord, runJobs, hs]

/-- Witness for C9: `notes.txt` copied to `out.txt`, another file. -/
theorem unknown_type_is_copied_witness :
    ∃ s, main id copyTransform id ⟨ascii "notes.txt", ascii "out.txt", [], [], false⟩ none
        (oneFileWorld (ascii "notes.txt") (ascii "hello")) = .done s ∧
      s.calls = [⟨ascii "notes.txt", [], none⟩] ∧
      s.world.files.lookup (ascii "out.txt") = some (ascii "hello") :=
  (unknown_type_is_copied id copyTransform id
    ⟨ascii "notes.txt", ascii "out.txt", [], [], false⟩ none
    (oneFileWorld (ascii "notes.txt") (ascii "hello")) (ascii "hello")
    (fun l => List.Perm.refl l) rfl rfl (by decide) (by decide) (by decide)
    (fun _ _ _ => by decide) (fun h => absurd h (by decide))).2.2.2.2.2

end Minify
